import Mathlib

/-!
Verification of the dofus-deobfs matching engine.

This file shallowly embeds the two-stage matching engine of the repository
(files utils/mappings/enum.go and utils/mappings/strictstructure.go) in Lean 4
and proves properties of it.

Modelling conventions:
- Go float64 values are modelled as exact rationals.  The one place where the
  Go code can produce a float NaN (the division 0.0/0.0 in compareEnums when
  both name-to-number maps are empty) is modelled by an Option value, with
  none standing for NaN; every other division in the engine provably has a
  non-zero denominator.
- Go maps (map[string]int, map[string]EnumType, map[string]bool) are modelled
  as association lists with last-write-wins insertion.  Counting and lookup
  on such a list coincide with the map semantics.  Go randomizes map
  iteration order; functions whose result can depend on that order take an
  explicit reordering function as a parameter, so that one run of the Go
  program corresponds to one choice of reordering.
- Logging and the process-wide progress counters are observational only and
  are omitted.
-/

namespace Deobfs

/-- EnumValue from utils/parse.go: a named enum constant. -/
structure EnumValue where
  name : String
  number : Int
  deriving DecidableEq, Repr

/-- EnumType from utils/parse.go: a named enum with an ordered value list. -/
structure EnumType where
  name : String
  value : List EnumValue
  deriving DecidableEq, Repr

/-- Field from utils/parse.go.  The Go field Type (a string) is named type
here; OneOfIndex is a nullable int. -/
structure Field where
  name : String
  number : Int
  label : String
  type : String
  typeName : String
  oneOfIndex : Option Int
  deriving DecidableEq, Repr

/-- OneOfDecl from utils/parse.go. -/
structure OneOfDecl where
  name : String
  deriving DecidableEq, Repr

/-- MessageType from utils/parse.go.  It is recursive through the list of
nested message types, so it is declared as an inductive type. -/
inductive MessageType : Type where
  | mk (name : String) (field : List Field) (nestedType : List MessageType)
      (enumType : List EnumType) (oneOfDecl : List OneOfDecl) (sourceFile : String)

/-- Accessor for the message name. -/
def MessageType.name : MessageType → String
  | .mk n _ _ _ _ _ => n

/-- Accessor for the ordered field list. -/
def MessageType.field : MessageType → List Field
  | .mk _ f _ _ _ _ => f

/-- Accessor for the nested message list. -/
def MessageType.nestedType : MessageType → List MessageType
  | .mk _ _ ns _ _ _ => ns

/-- Accessor for the directly declared enums. -/
def MessageType.enumType : MessageType → List EnumType
  | .mk _ _ _ es _ _ => es

/-- Accessor for the oneof declarations. -/
def MessageType.oneOfDecl : MessageType → List OneOfDecl
  | .mk _ _ _ _ os _ => os

/-- Accessor for the source file the message came from. -/
def MessageType.sourceFile : MessageType → String
  | .mk _ _ _ _ _ s => s

/-- Descriptor from utils/parse.go.  The syntax string field of the Go struct
is omitted: it is never read by the matching engine. -/
structure Descriptor where
  name : String
  package : String
  dependency : List String
  messageType : List MessageType
  enumType : List EnumType

/-- Insertion into an association list with Go map semantics: overwriting an
existing key in place, otherwise appending. -/
def insertKV {β : Type} (m : List (String × β)) (k : String) (v : β) :
    List (String × β) :=
  if m.any (fun p => p.1 = k) then
    m.map (fun p => if p.1 = k then (k, v) else p)
  else m ++ [(k, v)]

/-- Lookup in an association list. -/
def lookupKV {β : Type} : List (String × β) → String → Option β
  | [], _ => none
  | p :: r, k => if p.1 = k then some p.2 else lookupKV r k

/-- The name-to-number map built by compareEnums for one enum
(for _, v := range e.Value: m[v.Name] = v.Number). -/
def enumMap (vs : List EnumValue) : List (String × Int) :=
  vs.foldl (fun m v => insertKV m v.name v.number) []

/-- The count of matching values computed by compareEnums: names present in
both maps with equal numbers. -/
def matchingCount (om um : List (String × Int)) : Nat :=
  om.countP (fun p => decide (lookupKV um p.1 = some p.2))

/-- compareEnums from utils/mappings/enum.go.  Returns the match decision and
the confidence; the confidence is none exactly when the Go code computes
0.0/0.0, that is a float NaN (both name-to-number maps empty). -/
def compareEnums (obfs unobfs : EnumType) : Bool × Option ℚ :=
  let obfsMap := enumMap obfs.value
  let unobsMap := enumMap unobfs.value
  let matchingValues := matchingCount obfsMap unobsMap
  let smallerSize := min obfsMap.length unobsMap.length
  if matchingValues = smallerSize then
    (true,
      if max obfsMap.length unobsMap.length = 0 then none
      else some ((matchingValues : ℚ) /
        ((max obfsMap.length unobsMap.length : Nat) : ℚ) * 100))
  else (false, some 0)

mutual

/-- getAllEnums from utils/mappings/enum.go: all enums reachable from a
message, keyed by dotted path.  The Go map content is represented as an
association list in first-insertion order. -/
def getAllEnums (msg : MessageType) (parentPath : String) :
    List (String × EnumType) :=
  match msg with
  | .mk name _ nested enums _ _ =>
    let base := if parentPath = "" then name else parentPath
    let direct := enums.foldl
      (fun acc e => insertKV acc (base ++ "." ++ e.name) e) []
    getAllEnumsNested nested base direct

/-- The loop over nested messages inside getAllEnums, copying each nested
map into the accumulator. -/
def getAllEnumsNested (msgs : List MessageType) (base : String)
    (acc : List (String × EnumType)) : List (String × EnumType) :=
  match msgs with
  | [] => acc
  | n :: rest =>
    let nestedPath := base ++ "." ++ n.name
    let acc2 := (getAllEnums n nestedPath).foldl
      (fun a pe => insertKV a pe.1 pe.2) acc
    getAllEnumsNested rest base acc2

end

/-- EnumMatch from utils/parse.go. -/
structure EnumMatch where
  obfuscatedEnum : String
  originalEnum : String
  values : List String
  confidence : ℚ
  deriving DecidableEq, Repr

/-- MessageMatch from utils/parse.go. -/
structure MessageMatch where
  obfuscatedMsg : String
  obfuscatedFile : String
  originalMsg : String
  originalFile : String
  matchPercent : ℚ
  enumMatches : List EnumMatch
  deriving DecidableEq, Repr

/-- formatEnumValues from utils/mappings/enum.go. -/
def formatEnumValues (values : List EnumValue) : List String :=
  values.map (fun v => v.name ++ "=" ++ toString v.number)

/-- The Go zero value of EnumMatch (var bestMatch utils.EnumMatch). -/
def defaultEnumMatch : EnumMatch := ⟨"", "", [], 0⟩

/-- One iteration of the inner candidate-enum loop (lines 47-70 of
utils/mappings/enum.go): the state is (matched, bestMatch, bestConfidence).
A NaN confidence (none) never passes the strict comparison
confidence > bestConfidence, exactly as in Go. -/
def scanStep (obfsPath : String) (obfsEnum : EnumType)
    (acc : Bool × EnumMatch × ℚ) (pe : String × EnumType) :
    Bool × EnumMatch × ℚ :=
  let r := compareEnums obfsEnum pe.2
  if r.1 then
    match r.2 with
    | some confidence =>
      if confidence > acc.2.2 then
        (true, ⟨obfsPath, pe.1, formatEnumValues obfsEnum.value, confidence⟩,
          confidence)
      else acc
    | none => acc
  else acc

/-- The inner scan of compareEnums candidates for a single obfuscated enum
(lines 43-70 of utils/mappings/enum.go): fold over the unobfuscated enums,
keeping the best-confidence match. -/
def scanUnobsEnums (obfsPath : String) (obfsEnum : EnumType)
    (unobsEnums : List (String × EnumType)) : Bool × EnumMatch × ℚ :=
  unobsEnums.foldl (scanStep obfsPath obfsEnum) (false, defaultEnumMatch, 0)

/-- One iteration of the loop over the obfuscated enums of one message
(lines 42-77 of utils/mappings/enum.go): append the best match when one was
found, otherwise clear the allEnumsMatched flag. -/
def meaStep (unobsEnums : List (String × EnumType))
    (acc : List EnumMatch × Bool) (pe : String × EnumType) :
    List EnumMatch × Bool :=
  let r := scanUnobsEnums pe.1 pe.2 unobsEnums
  if r.1 then (acc.1 ++ [r.2.1], acc.2) else (acc.1, false)

/-- The loop over all obfuscated enums of one message against one candidate
message (lines 38-77 of utils/mappings/enum.go), producing the collected
enum matches and the allEnumsMatched flag. -/
def matchEnumsAgainst (obfsEnums unobsEnums : List (String × EnumType)) :
    List EnumMatch × Bool :=
  obfsEnums.foldl (meaStep unobsEnums) ([], true)

/-- The scan over unobfuscated messages for one obfuscated message (lines
35-113 of utils/mappings/enum.go), stopping at the first candidate for which
every obfuscated enum matched (the break at line 111).  The parameter ord
models Go map iteration order. -/
def findUnobsMatch (ord : List (String × EnumType) → List (String × EnumType))
    (obsMsg : MessageType) (obfsEnums : List (String × EnumType)) :
    List MessageType → Option MessageMatch
  | [] => none
  | unobsMsg :: rest =>
    let unobsEnums := ord (getAllEnums unobsMsg "")
    let r := matchEnumsAgainst obfsEnums unobsEnums
    if r.2 && decide (0 < r.1.length) then
      let totalConfidence := (r.1.map (fun em => em.confidence)).sum
      let averageConfidence := totalConfidence / (r.1.length : ℚ)
      some
        ⟨obsMsg.name, obsMsg.sourceFile, unobsMsg.name, unobsMsg.sourceFile,
          averageConfidence, r.1⟩
    else findUnobsMatch ord obsMsg obfsEnums rest

/-- The body of the outer loop of FindEnumBasedMatches (lines 28-114 of
utils/mappings/enum.go): skip a message without enums, otherwise record the
first fully-satisfying candidate match, if any. -/
def febStep (ord : List (String × EnumType) → List (String × EnumType))
    (unobfuscated : Descriptor) (acc : List MessageMatch)
    (obsMsg : MessageType) : List MessageMatch :=
  let obfsEnums := ord (getAllEnums obsMsg "")
  if obfsEnums.length = 0 then acc
  else
    match findUnobsMatch ord obsMsg obfsEnums unobfuscated.messageType with
    | some m => acc ++ [m]
    | none => acc

/-- FindEnumBasedMatches from utils/mappings/enum.go.  The parameter ord
models Go map iteration order: it is applied to every association list that
the Go code obtains by ranging over a map.  Progress-counter updates and
logging are omitted (observational only). -/
def FindEnumBasedMatches
    (ord : List (String × EnumType) → List (String × EnumType))
    (obfuscated unobfuscated : Descriptor) : List MessageMatch :=
  obfuscated.messageType.foldl (febStep ord unobfuscated) []

/-- contains from utils/mappings/strictstructure.go. -/
def contains (slice : List String) (item : String) : Bool :=
  slice.any (fun s => s = item)

/-- primitiveTypes from compareTypes in utils/mappings/strictstructure.go:
the values of the Go map, one singleton compatibility class per primitive
type (iteration order of the map is irrelevant: only existence is tested). -/
def primitiveTypes : List (List String) :=
  [["int32"], ["int64"], ["string"], ["bool"]]

/-- compareTypes from utils/mappings/strictstructure.go. -/
def compareTypes (obfsType unobsType : String) : Bool :=
  primitiveTypes.any
    (fun compatTypes => contains compatTypes obfsType && contains compatTypes unobsType)

/-- compareFields from utils/mappings/strictstructure.go. -/
def compareFields (obfs unobs : Field) : Bool :=
  if obfs.label ≠ unobs.label then false
  else compareTypes obfs.type unobs.type

/-- getOneofFields from utils/mappings/strictstructure.go. -/
def getOneofFields (msg : MessageType) (oneofIndex : Int) : List Field :=
  msg.field.filter (fun f => f.oneOfIndex = some oneofIndex)

/-- compareOneofFields from utils/mappings/strictstructure.go: the ratio of
obfuscated oneof fields that find some matching field in the other slot. -/
def compareOneofFields (obfsFields unobsFields : List Field) : ℚ :=
  if obfsFields.length = 0 ∨ unobsFields.length = 0 then 0
  else
    ((obfsFields.countP
        (fun fo => unobsFields.any (fun fu => compareFields fo fu)) : ℚ)) /
      ((max obfsFields.length unobsFields.length : Nat) : ℚ)

/-- The similarity score 1 - |a - b| / max(a, b) used by
compareMessageStructures for field, oneof and nested-type counts. -/
def countSimilarity (a b : ℕ) : ℚ :=
  1 - |(a : ℚ) - (b : ℚ)| / ((max a b : ℕ) : ℚ)

/-- State of the (matchScore, totalChecks) accumulator after the field-count
check and the positional field-type check (lines 155-178 of
utils/mappings/strictstructure.go). -/
def cmsP2 (obfs unobs : MessageType) : ℚ × ℚ :=
  let fieldCountScore := countSimilarity obfs.field.length unobs.field.length
  let maxFields := min obfs.field.length unobs.field.length
  let matchingFields :=
    (obfs.field.zip unobs.field).countP (fun p => compareFields p.1 p.2)
  if 0 < maxFields then
    (fieldCountScore + (matchingFields : ℚ) / (maxFields : ℚ), 1 + 1)
  else (fieldCountScore, 1)

/-- Accumulator state after the oneof checks (lines 181-196): oneof-count
similarity plus one check per aligned oneof slot. -/
def cmsP3 (obfs unobs : MessageType) : ℚ × ℚ :=
  if 0 < obfs.oneOfDecl.length ∨ 0 < unobs.oneOfDecl.length then
    (List.range (min obfs.oneOfDecl.length unobs.oneOfDecl.length)).foldl
      (fun acc i =>
        (acc.1 +
          compareOneofFields (getOneofFields obfs (i : Int))
            (getOneofFields unobs (i : Int)),
          acc.2 + 1))
      ((cmsP2 obfs unobs).1 +
        countSimilarity obfs.oneOfDecl.length unobs.oneOfDecl.length,
        (cmsP2 obfs unobs).2 + 1)
  else cmsP2 obfs unobs

/-- Accumulator state after the nested-type-count check (lines 199-204):
the final (matchScore, totalChecks) of compareMessageStructures. -/
def cmsChecks (obfs unobs : MessageType) : ℚ × ℚ :=
  if 0 < obfs.nestedType.length ∨ 0 < unobs.nestedType.length then
    ((cmsP3 obfs unobs).1 +
      countSimilarity obfs.nestedType.length unobs.nestedType.length,
      (cmsP3 obfs unobs).2 + 1)
  else cmsP3 obfs unobs

/-- compareMessageStructures from utils/mappings/strictstructure.go.  Every
division provably has a positive denominator, so the rationals model the
float computation with no NaN case. -/
def compareMessageStructures (obfs unobs : MessageType) : Bool × ℚ :=
  if obfs.field.length = 0 ∨ unobs.field.length = 0 then (false, 0)
  else
    if (cmsChecks obfs unobs).2 = 0 then (false, 0)
    else
      let confidence := (cmsChecks obfs unobs).1 / (cmsChecks obfs unobs).2 * 100
      (decide (confidence ≥ 80), confidence)

/-- isPerfectStructureMatch from utils/mappings/strictstructure.go. -/
def isPerfectStructureMatch (obfs unobs : MessageType) : Bool :=
  (compareMessageStructures obfs unobs).1 &&
    decide ((compareMessageStructures obfs unobs).2 = 100)

/-- The mutable state of FindStrictStructureBasedMatches: the two
matched-name sets (Go map[string]bool, modelled by membership in a list),
the two unmatched pools, the accumulated matches and the somethingChanged
flag of the current pass. -/
structure SMState where
  matchedObs : List String
  matchedUnobs : List String
  unmatchedObs : List MessageType
  unmatchedUnobs : List MessageType
  foundMatches : List MessageMatch
  changed : Bool

/-- The perfect-match candidate list computed for one obfuscated message
(lines 65-75 of utils/mappings/strictstructure.go). -/
def candidatesFor (st : SMState) (obsMsg : MessageType) : List MessageType :=
  st.unmatchedUnobs.filter
    (fun u => !st.matchedUnobs.contains u.name && isPerfectStructureMatch obsMsg u)

/-- The acceptance block of FindStrictStructureBasedMatches (lines 78-104):
mark both messages matched, record the match (with the confidence retrieved
again from compareMessageStructures) and set somethingChanged. -/
def acceptState (st : SMState) (obsMsg matched : MessageType) : SMState :=
  { st with
    matchedObs := obsMsg.name :: st.matchedObs
    matchedUnobs := matched.name :: st.matchedUnobs
    foundMatches := st.foundMatches ++
      [⟨obsMsg.name, obsMsg.sourceFile, matched.name, matched.sourceFile,
        (compareMessageStructures obsMsg matched).2, []⟩]
    changed := true }

/-- The body of the inner loop of FindStrictStructureBasedMatches (lines
59-105): one obfuscated message is either skipped, accepted against a unique
perfect candidate, or deferred. -/
def processObsMsg (st : SMState) (obsMsg : MessageType) : SMState :=
  if st.matchedObs.contains obsMsg.name then st
  else
    match candidatesFor st obsMsg with
    | [matched] => acceptState st obsMsg matched
    | _ => st

/-- The pool rebuild at the end of a pass (lines 108-125). -/
def rebuildPools (st : SMState) : SMState :=
  { st with
    unmatchedObs := st.unmatchedObs.filter (fun m => !st.matchedObs.contains m.name)
    unmatchedUnobs :=
      st.unmatchedUnobs.filter (fun m => !st.matchedUnobs.contains m.name) }

/-- One pass of the peeling loop (lines 51-126): process every unmatched
obfuscated message, then, if something changed, rebuild both unmatched
pools. -/
def onePass (st : SMState) : SMState :=
  let st1 := st.unmatchedObs.foldl processObsMsg { st with changed := false }
  if st1.changed then rebuildPools st1 else st1

/-- The peeling loop (for somethingChanged).  Go repeats passes while the
last pass changed something; the fuel argument bounds the number of passes.
A theorem below shows that a fuel of (initially unmatched) + 1 always
reaches the no-change state, so with that fuel this function is exactly the
Go loop. -/
def smLoop : Nat → SMState → SMState
  | 0, st => st
  | fuel + 1, st =>
    let st1 := onePass st
    if st1.changed then smLoop fuel st1 else st1

/-- The initial state of FindStrictStructureBasedMatches (lines 17-43):
names from enumMatches are pre-marked matched and the unmatched pools are
the complements. -/
def initState (obfuscated unobfuscated : Descriptor)
    (enumMatches : List MessageMatch) : SMState :=
  let matchedObs := enumMatches.map (fun em => em.obfuscatedMsg)
  let matchedUnobs := enumMatches.map (fun em => em.originalMsg)
  { matchedObs := matchedObs
    matchedUnobs := matchedUnobs
    unmatchedObs :=
      obfuscated.messageType.filter (fun m => !matchedObs.contains m.name)
    unmatchedUnobs :=
      unobfuscated.messageType.filter (fun m => !matchedUnobs.contains m.name)
    foundMatches := []
    changed := false }

/-- FindStrictStructureBasedMatches from utils/mappings/strictstructure.go.
Progress-counter updates and logging are omitted (observational only). -/
def FindStrictStructureBasedMatches (obfuscated unobfuscated : Descriptor)
    (enumMatches : List MessageMatch) : List MessageMatch :=
  let st0 := initState obfuscated unobfuscated enumMatches
  (smLoop (st0.unmatchedObs.length + 1) st0).foundMatches

/-- The defer condition for one obfuscated message during a pass: it is
either already matched or its perfect-candidate list does not have exactly
one entry.  Processing a message with this condition leaves the state
untouched. -/
def failCond (st : SMState) (o : MessageType) : Prop :=
  st.matchedObs.contains o.name = true ∨ (candidatesFor st o).length ≠ 1

/-- A state in which a pass accepts nothing: every pooled obfuscated message
is deferred.  This is the fixed point of the peeling loop. -/
def noAccept (st : SMState) : Prop :=
  ∀ o ∈ st.unmatchedObs, failCond st o

/-- The components of a MessageMatch other than the recorded enum-match
details: the two message names, their files, and the confidence. -/
def matchSummary (m : MessageMatch) : String × String × String × String × ℚ :=
  (m.obfuscatedMsg, m.obfuscatedFile, m.originalMsg, m.originalFile, m.matchPercent)

/-- The contribution of one unobfuscated enum to the running best confidence
in scanUnobsEnums: its compareEnums confidence if it matches (a NaN
confidence counts 0, as it never wins the strict comparison), else 0. -/
def gConf (obfsEnum : EnumType) (pe : String × EnumType) : ℚ :=
  if (compareEnums obfsEnum pe.2).1 then ((compareEnums obfsEnum pe.2).2).getD 0
  else 0

/-- A scalar int32 field used in concrete test inputs. -/
def fieldInt32 : Field := ⟨"x", 1, "", "int32", "", none⟩

/-- Concrete obfuscated message with one int32 field. -/
def msgO : MessageType := .mk "O" [fieldInt32] [] [] [] "o.proto"

/-- Concrete reference message, field shape identical to msgO. -/
def msgR1 : MessageType := .mk "R1" [fieldInt32] [] [] [] "r.proto"

/-- Second concrete reference message, field shape identical to msgR1. -/
def msgR2 : MessageType := .mk "R2" [fieldInt32] [] [] [] "r.proto"

/-- Concrete obfuscated descriptor containing only msgO. -/
def descO : Descriptor := ⟨"", "", [], [msgO], []⟩

/-- Concrete reference descriptor with two shape-identical messages. -/
def descR : Descriptor := ⟨"", "", [], [msgR1, msgR2], []⟩

/-- Concrete reference descriptor with a single message. -/
def descR1 : Descriptor := ⟨"", "", [], [msgR1], []⟩

/-- Concrete enum with the single value A=0. -/
def enumA0 : EnumType := ⟨"E", [⟨"A", 0⟩]⟩

/-- Concrete obfuscated message declaring enumA0. -/
def msgEo : MessageType := .mk "M" [] [] [enumA0] [] "mo.proto"

/-- Concrete reference message declaring two enums with identical values,
so that both tie at confidence 100 against enumA0. -/
def msgEu : MessageType :=
  .mk "N" [] [] [⟨"E1", [⟨"A", 0⟩]⟩, ⟨"E2", [⟨"A", 0⟩]⟩] [] "mu.proto"

/-- Concrete obfuscated descriptor for the enum matcher. -/
def descEo : Descriptor := ⟨"", "", [], [msgEo], []⟩

/-- Concrete reference descriptor for the enum matcher. -/
def descEu : Descriptor := ⟨"", "", [], [msgEu], []⟩

/-- Concrete obfuscated message named X; its name collides with the
OriginalMsg of emX below. -/
def msgX : MessageType := .mk "X" [fieldInt32] [] [] [] "x.proto"

/-- Concrete reference message matching msgX. -/
def msgY : MessageType := .mk "Y" [fieldInt32] [] [] [] "y.proto"

/-- Concrete obfuscated descriptor containing only msgX. -/
def descX : Descriptor := ⟨"", "", [], [msgX], []⟩

/-- Concrete reference descriptor containing only msgY. -/
def descY : Descriptor := ⟨"", "", [], [msgY], []⟩

/-- A prior match list whose single entry has OriginalMsg X, the name of the
obfuscated message msgX. -/
def emX : List MessageMatch := [⟨"A", "a.proto", "X", "ref.proto", 100, []⟩]

/-- Invariant of the (matchScore, totalChecks) accumulator: the score is
between 0 and the check count, and at least one check has been taken. -/
def scoreInv (p : ℚ × ℚ) : Prop :=
  0 ≤ p.1 ∧ p.1 ≤ p.2 ∧ 1 ≤ p.2

/-- The invariant used to show that shape-identical reference twins are never
matched: both stay in the pool, neither name is marked matched, the pool
stays inside the reference descriptor, and no recorded match names them. -/
def twinsInv (unobf : Descriptor) (u1 u2 : MessageType) (st : SMState) : Prop :=
  (u1 ∈ st.unmatchedUnobs ∧ u2 ∈ st.unmatchedUnobs) ∧
    (st.matchedUnobs.contains u1.name = false ∧
      st.matchedUnobs.contains u2.name = false) ∧
    (∀ x ∈ st.unmatchedUnobs, x ∈ unobf.messageType) ∧
    (∀ m ∈ st.foundMatches, m.originalMsg ≠ u1.name ∧ m.originalMsg ≠ u2.name)

/-- The one-to-one and freshness invariant of the Structure Matcher output:
recorded matches have pairwise distinct obfuscated names and pairwise
distinct original names, every recorded name is marked matched, the names
pre-marked from the enum stage stay marked, and no recorded match reuses a
pre-marked name of its own side. -/
def onetoOneInv (emObs emOrig : List String) (st : SMState) : Prop :=
  ((st.foundMatches.map (fun m => m.obfuscatedMsg)).Nodup ∧
    (st.foundMatches.map (fun m => m.originalMsg)).Nodup) ∧
  (∀ m ∈ st.foundMatches,
    m.obfuscatedMsg ∈ st.matchedObs ∧ m.originalMsg ∈ st.matchedUnobs) ∧
  ((∀ x ∈ emObs, x ∈ st.matchedObs) ∧ (∀ x ∈ emOrig, x ∈ st.matchedUnobs)) ∧
  (∀ m ∈ st.foundMatches, m.obfuscatedMsg ∉ emObs ∧ m.originalMsg ∉ emOrig)

/-- Correspondence between the matched-name sets and the recorded matches:
a name is marked matched exactly when it was pre-marked by the enum stage or
recorded in a match of this run. -/
def matchedCorr (mo mu : List String) (st : SMState) : Prop :=
  (∀ x, x ∈ st.matchedObs ↔
    x ∈ mo ∨ x ∈ st.foundMatches.map (fun m => m.obfuscatedMsg)) ∧
  (∀ x, x ∈ st.matchedUnobs ↔
    x ∈ mu ∨ x ∈ st.foundMatches.map (fun m => m.originalMsg))

/-- At pass boundaries the unmatched pools are exactly the complements of
the matched-name sets inside the two descriptors. -/
def poolCorr (obf unobf : Descriptor) (st : SMState) : Prop :=
  st.unmatchedObs =
    obf.messageType.filter (fun m => !st.matchedObs.contains m.name) ∧
  st.unmatchedUnobs =
    unobf.messageType.filter (fun m => !st.matchedUnobs.contains m.name)

/-! ## Association-list (Go map) lemmas -/

theorem insertKV_keys_nodup {β : Type} {m : List (String × β)}
    (h : (m.map Prod.fst).Nodup) (k : String) (v : β) :
    ((insertKV m k v).map Prod.fst).Nodup := by
  unfold insertKV
  split
  · have hmap : (m.map (fun p => if p.1 = k then (k, v) else p)).map Prod.fst =
        m.map Prod.fst := by
      rw [List.map_map]
      apply List.map_congr_left
      intro p _
      by_cases hp : p.1 = k
      · simp [hp]
      · simp [hp]
    rw [hmap]
    exact h
  · rename_i hnone
    have hk : k ∉ m.map Prod.fst := by
      intro hmem
      rcases List.mem_map.mp hmem with ⟨p, hp, hpk⟩
      exact hnone (List.any_eq_true.mpr ⟨p, hp, by simp [hpk]⟩)
    simp only [List.map_append, List.map_cons, List.map_nil]
    rw [List.nodup_append]
    refine ⟨h, List.nodup_singleton k, ?_⟩
    intro x hx hx1
    simp only [List.mem_singleton] at hx1
    exact hk (hx1 ▸ hx)

theorem enumMap_keys_nodup (vs : List EnumValue) :
    ((enumMap vs).map Prod.fst).Nodup := by
  unfold enumMap
  have : ∀ (l : List EnumValue) (m : List (String × Int)),
      (m.map Prod.fst).Nodup →
      ((l.foldl (fun m v => insertKV m v.name v.number) m).map Prod.fst).Nodup := by
    intro l
    induction l with
    | nil => intro m hm; exact hm
    | cons v rest ih =>
      intro m hm
      exact ih _ (insertKV_keys_nodup hm v.name v.number)
  exact this vs [] (by simp)

theorem mem_of_lookupKV_eq_some {β : Type} {m : List (String × β)} {k : String}
    {v : β} (h : lookupKV m k = some v) : (k, v) ∈ m := by
  induction m with
  | nil => simp [lookupKV] at h
  | cons p r ih =>
    by_cases hp : p.1 = k
    · simp only [lookupKV, hp, if_pos] at h
      have : p = (k, v) := by
        cases p
        simp_all
      simp [this]
    · simp only [lookupKV, hp, if_neg, not_false_eq_true] at h
      exact List.mem_cons_of_mem _ (ih h)

theorem lookupKV_eq_some_of_mem {β : Type} {m : List (String × β)}
    (hn : (m.map Prod.fst).Nodup) {k : String} {v : β} (h : (k, v) ∈ m) :
    lookupKV m k = some v := by
  induction m with
  | nil => simp at h
  | cons p r ih =>
    simp only [List.map_cons, List.nodup_cons] at hn
    rcases List.mem_cons.mp h with h1 | h1
    · simp [lookupKV, h1.symm]
    · have hpk : p.1 ≠ k := by
        intro hk
        exact hn.1 (hk ▸ List.mem_map.mpr ⟨(k, v), h1, rfl⟩)
      simp only [lookupKV, hpk, if_neg, not_false_eq_true]
      exact ih hn.2 h1

theorem matchingCount_comm {om um : List (String × Int)}
    (ho : (om.map Prod.fst).Nodup) (hu : (um.map Prod.fst).Nodup) :
    matchingCount om um = matchingCount um om := by
  unfold matchingCount
  rw [List.countP_eq_length_filter, List.countP_eq_length_filter]
  have hperm :
      (om.filter (fun p => decide (lookupKV um p.1 = some p.2))).Perm
        (um.filter (fun p => decide (lookupKV om p.1 = some p.2))) := by
    apply (List.perm_ext_iff_of_nodup
      ((List.Nodup.of_map Prod.fst ho).filter _)
      ((List.Nodup.of_map Prod.fst hu).filter _)).mpr
    intro p
    simp only [List.mem_filter, decide_eq_true_eq]
    constructor
    · rintro ⟨hpo, hlu⟩
      exact ⟨mem_of_lookupKV_eq_some hlu, lookupKV_eq_some_of_mem ho hpo⟩
    · rintro ⟨hpu, hlo⟩
      exact ⟨mem_of_lookupKV_eq_some hlo, lookupKV_eq_some_of_mem hu hpu⟩
  exact hperm.length_eq

theorem matchingCount_le_left (om um : List (String × Int)) :
    matchingCount om um ≤ om.length :=
  List.countP_le_length _

/-! ## compareEnums lemmas -/

theorem compareEnums_fst (A B : EnumType) :
    (compareEnums A B).1 =
      decide (matchingCount (enumMap A.value) (enumMap B.value) =
        min (enumMap A.value).length (enumMap B.value).length) := by
  unfold compareEnums
  dsimp only
  split
  · rename_i h
    simp [h]
  · rename_i h
    simp [h]

theorem compareEnums_snd_of_match (A B : EnumType)
    (h : matchingCount (enumMap A.value) (enumMap B.value) =
      min (enumMap A.value).length (enumMap B.value).length) :
    (compareEnums A B).2 =
      if max (enumMap A.value).length (enumMap B.value).length = 0 then none
      else some ((matchingCount (enumMap A.value) (enumMap B.value) : ℚ) /
        ((max (enumMap A.value).length (enumMap B.value).length : Nat) : ℚ) * 100) := by
  unfold compareEnums
  dsimp only
  rw [if_pos h]

theorem matchingCount_eq_min_iff {om um : List (String × Int)}
    (ho : (om.map Prod.fst).Nodup) (hu : (um.map Prod.fst).Nodup) :
    matchingCount om um = min om.length um.length ↔
      ((om.length ≤ um.length → ∀ p ∈ om, lookupKV um p.1 = some p.2) ∧
        (um.length ≤ om.length → ∀ p ∈ um, lookupKV om p.1 = some p.2)) := by
  constructor
  · intro h
    constructor
    · intro hle p hp
      rw [min_eq_left hle] at h
      have := (List.countP_eq_length.mp h) p hp
      simpa using this
    · intro hle p hp
      rw [min_eq_right hle] at h
      rw [matchingCount_comm ho hu] at h
      have := (List.countP_eq_length.mp h) p hp
      simpa using this
  · rintro ⟨h1, h2⟩
    rcases le_total om.length um.length with hle | hle
    · rw [min_eq_left hle]
      exact List.countP_eq_length.mpr (fun p hp => by simpa using h1 hle p hp)
    · rw [min_eq_right hle]
      rw [matchingCount_comm ho hu]
      exact List.countP_eq_length.mpr (fun p hp => by simpa using h2 hle p hp)

theorem matchingCount_empty_right (om : List (String × Int)) :
    matchingCount om [] = 0 := by
  unfold matchingCount
  rw [List.countP_eq_zero]
  intro p _
  simp [lookupKV]

/-- C1: compareEnums declares a match if and only if the number of value
names present in both name-to-number maps with equal numbers equals the size
of the smaller map — equivalently, every entry of the smaller map has an
identical name-and-number counterpart in the larger — and when it is a match
(and at least one map is nonempty, so that no NaN arises) the returned
confidence equals matching / max of the two sizes * 100. -/
theorem C1_compareEnums_match_and_confidence (A B : EnumType) :
    ((compareEnums A B).1 = true ↔
      matchingCount (enumMap A.value) (enumMap B.value) =
        min (enumMap A.value).length (enumMap B.value).length) ∧
    ((compareEnums A B).1 = true ↔
      (((enumMap A.value).length ≤ (enumMap B.value).length →
          ∀ p ∈ enumMap A.value, lookupKV (enumMap B.value) p.1 = some p.2) ∧
        ((enumMap B.value).length ≤ (enumMap A.value).length →
          ∀ p ∈ enumMap B.value, lookupKV (enumMap A.value) p.1 = some p.2))) ∧
    ((compareEnums A B).1 = true →
      0 < max (enumMap A.value).length (enumMap B.value).length →
      (compareEnums A B).2 =
        some ((matchingCount (enumMap A.value) (enumMap B.value) : ℚ) /
          ((max (enumMap A.value).length (enumMap B.value).length : Nat) : ℚ) * 100)) := by
  have h1 : (compareEnums A B).1 = true ↔
      matchingCount (enumMap A.value) (enumMap B.value) =
        min (enumMap A.value).length (enumMap B.value).length := by
    rw [compareEnums_fst]
    simp
  refine ⟨h1, ?_, ?_⟩
  · rw [h1]
    exact matchingCount_eq_min_iff (enumMap_keys_nodup _) (enumMap_keys_nodup _)
  · intro hm hpos
    rw [compareEnums_snd_of_match A B (h1.mp hm)]
    rw [if_neg (Nat.pos_iff_ne_zero.mp hpos)]

/-- C1 witness: a concrete superset pair, matching at confidence 50. -/
theorem C1_witness :
    (compareEnums ⟨"E", [⟨"A", 0⟩]⟩ ⟨"F", [⟨"A", 0⟩, ⟨"B", 1⟩]⟩).1 = true ∧
    (compareEnums ⟨"E", [⟨"A", 0⟩]⟩ ⟨"F", [⟨"A", 0⟩, ⟨"B", 1⟩]⟩).2 = some 50 := by
  have h := (C1_compareEnums_match_and_confidence
    ⟨"E", [⟨"A", 0⟩]⟩ ⟨"F", [⟨"A", 0⟩, ⟨"B", 1⟩]⟩).2.2 (by rfl) (by decide)
  refine ⟨by rfl, ?_⟩
  rw [h]
  have hmc : matchingCount (enumMap [⟨"A", 0⟩]) (enumMap [⟨"A", 0⟩, ⟨"B", 1⟩]) = 1 := by
    decide
  have hl1 : (enumMap [(⟨"A", 0⟩ : EnumValue)]).length = 1 := by decide
  have hl2 : (enumMap [(⟨"A", 0⟩ : EnumValue), ⟨"B", 1⟩]).length = 2 := by decide
  have hm12 : (1 : ℕ) ⊔ 2 = 2 := by decide
  dsimp only
  rw [hmc, hl1, hl2, hm12]
  norm_num

/-- C8: the boolean match decision of compareEnums is symmetric, even though
the confidence uses the larger size in the denominator. -/
theorem C8_match_decision_symmetric (A B : EnumType) :
    (compareEnums A B).1 = (compareEnums B A).1 := by
  rw [compareEnums_fst, compareEnums_fst,
    matchingCount_comm (enumMap_keys_nodup _) (enumMap_keys_nodup _),
    min_comm]

/-- C4 counterexample: on an enum with an empty value list against a
nonempty one, compareEnums returns a MATCH with confidence 0; the claim says
it returns no match.  (Every entry of the empty map trivially has a
counterpart, so the superset test passes.) -/
theorem C4_counterexample :
    compareEnums ⟨"E", []⟩ ⟨"F", [⟨"A", 0⟩]⟩ = (true, some 0) := by
  simp [compareEnums, enumMap, matchingCount, insertKV]

/-- C4 amended: compareEnums on a degenerate pair (at least one empty value
list) does not fail, but it returns match = true, with confidence 0 when the
other map is nonempty and a NaN (modelled as none) when both are empty. -/
theorem C4_empty_enum_behaviour (A B : EnumType)
    (h : A.value = [] ∨ B.value = []) :
    (compareEnums A B).1 = true ∧
      ((compareEnums A B).2 = some 0 ∨ (compareEnums A B).2 = none) := by
  have hmc : matchingCount (enumMap A.value) (enumMap B.value) = 0 ∧
      min (enumMap A.value).length (enumMap B.value).length = 0 := by
    rcases h with h | h
    · rw [h]
      have : enumMap [] = [] := rfl
      rw [this]
      exact ⟨by simp [matchingCount], by simp⟩
    · rw [h]
      have : enumMap [] = [] := rfl
      rw [this]
      exact ⟨matchingCount_empty_right _, by simp⟩
  have hfst : (compareEnums A B).1 = true := by
    rw [compareEnums_fst, hmc.1, hmc.2]
    simp
  refine ⟨hfst, ?_⟩
  have hsnd := compareEnums_snd_of_match A B (hmc.1.trans hmc.2.symm)
  by_cases hz : max (enumMap A.value).length (enumMap B.value).length = 0
  · right
    rw [hsnd, if_pos hz]
  · left
    rw [hsnd, if_neg hz, hmc.1]
    norm_num

/-- C4 witness: the amended statement at the concrete degenerate pair. -/
theorem C4_witness :
    (compareEnums ⟨"E", []⟩ ⟨"F", [⟨"A", 0⟩]⟩).1 = true ∧
      ((compareEnums ⟨"E", []⟩ ⟨"F", [⟨"A", 0⟩]⟩).2 = some 0 ∨
        (compareEnums ⟨"E", []⟩ ⟨"F", [⟨"A", 0⟩]⟩).2 = none) :=
  C4_empty_enum_behaviour ⟨"E", []⟩ ⟨"F", [⟨"A", 0⟩]⟩ (Or.inl rfl)

/-- C9: compareFields holds exactly when the labels agree and the type
strings agree and lie in the closed primitive set int32, int64, string,
bool; message- or enum-typed fields never compare equal. -/
theorem C9_compareFields_characterization (a b : Field) :
    compareFields a b = true ↔
      a.label = b.label ∧ a.type = b.type ∧
        a.type ∈ ["int32", "int64", "string", "bool"] := by
  unfold compareFields compareTypes contains primitiveTypes
  by_cases h : a.label = b.label
  · rw [if_neg (by simp [h])]
    simp only [List.any_cons, List.any_nil, Bool.or_false, Bool.or_eq_true,
      Bool.and_eq_true, decide_eq_true_eq, List.mem_cons, List.not_mem_nil,
      or_false]
    constructor
    · rintro (⟨h1, h2⟩ | ⟨h1, h2⟩ | ⟨h1, h2⟩ | ⟨h1, h2⟩) <;>
        exact ⟨h, h1.symm.trans h2, by simp [← h1]⟩
    · rintro ⟨-, he, hm⟩
      rcases hm with h1 | h1 | h1 | h1 <;>
        simp [h1, he ▸ h1]
  · rw [if_pos (by simp [h])]
    simp [h]

/-! ## Bounds for compareMessageStructures -/

theorem scoreInv_step {p : ℚ × ℚ} {x : ℚ} (hp : scoreInv p)
    (hx : 0 ≤ x ∧ x ≤ 1) : scoreInv (p.1 + x, p.2 + 1) := by
  obtain ⟨h0, h1, h2⟩ := hp
  refine ⟨?_, ?_, ?_⟩ <;> dsimp only <;> linarith [hx.1, hx.2]

theorem scoreInv_ite (c : Prop) [Decidable c] (p q : ℚ × ℚ)
    (hp : c → scoreInv p) (hq : ¬c → scoreInv q) :
    scoreInv (if c then p else q) := by
  split
  · exact hp (by assumption)
  · exact hq (by assumption)

theorem scoreInv_foldl {α : Type} (l : List α) (f : ℚ × ℚ → α → ℚ × ℚ)
    (hf : ∀ p i, scoreInv p → scoreInv (f p i)) :
    ∀ p : ℚ × ℚ, scoreInv p → scoreInv (l.foldl f p) := by
  induction l with
  | nil => intro p hp; exact hp
  | cons i rest ih =>
    intro p hp
    exact ih _ (hf p i hp)

theorem countSimilarity_bounds (a b : ℕ) (h : 0 < max a b) :
    0 ≤ countSimilarity a b ∧ countSimilarity a b ≤ 1 := by
  unfold countSimilarity
  have hd : (0 : ℚ) < ((max a b : ℕ) : ℚ) := by exact_mod_cast h
  have habs : |(a : ℚ) - (b : ℚ)| ≤ ((max a b : ℕ) : ℚ) := by
    rcases le_total a b with hab | hab
    · have hq : (a : ℚ) ≤ (b : ℚ) := by exact_mod_cast hab
      rw [abs_of_nonpos (by linarith), neg_sub]
      have hbm : (b : ℚ) ≤ ((max a b : ℕ) : ℚ) := by exact_mod_cast le_max_right a b
      have ha0 : (0 : ℚ) ≤ (a : ℚ) := by positivity
      linarith
    · have hq : (b : ℚ) ≤ (a : ℚ) := by exact_mod_cast hab
      rw [abs_of_nonneg (by linarith)]
      have ham : (a : ℚ) ≤ ((max a b : ℕ) : ℚ) := by exact_mod_cast le_max_left a b
      have hb0 : (0 : ℚ) ≤ (b : ℚ) := by positivity
      linarith
  constructor
  · have := (div_le_one hd).mpr habs
    linarith
  · have : 0 ≤ |(a : ℚ) - (b : ℚ)| / ((max a b : ℕ) : ℚ) :=
      div_nonneg (abs_nonneg _) hd.le
    linarith

theorem count_ratio_bounds (c n : ℕ) (hc : c ≤ n) (h : 0 < n) :
    0 ≤ (c : ℚ) / (n : ℚ) ∧ (c : ℚ) / (n : ℚ) ≤ 1 := by
  have hd : (0 : ℚ) < (n : ℚ) := by exact_mod_cast h
  refine ⟨div_nonneg (by positivity) hd.le, (div_le_one hd).mpr (by exact_mod_cast hc)⟩

theorem compareOneofFields_bounds (l1 l2 : List Field) :
    0 ≤ compareOneofFields l1 l2 ∧ compareOneofFields l1 l2 ≤ 1 := by
  unfold compareOneofFields
  split
  · norm_num
  · rename_i h
    push_neg at h
    have h1 : 0 < l1.length := Nat.pos_of_ne_zero h.1
    have hle : l1.countP (fun fo => l2.any (fun fu => compareFields fo fu)) ≤
        max l1.length l2.length :=
      le_trans (List.countP_le_length _) (le_max_left _ _)
    exact count_ratio_bounds _ _ hle (lt_of_lt_of_le h1 (le_max_left _ _))

theorem cmsP2_scoreInv (obfs unobs : MessageType)
    (h1 : 0 < obfs.field.length) :
    scoreInv (cmsP2 obfs unobs) := by
  unfold cmsP2
  dsimp only
  have hfcs := countSimilarity_bounds obfs.field.length unobs.field.length
    (lt_of_lt_of_le h1 (le_max_left _ _))
  refine scoreInv_ite _ _ _ (fun hm => ?_) (fun _ => ?_)
  · have hcnt : (obfs.field.zip unobs.field).countP
        (fun p => compareFields p.1 p.2) ≤
        min obfs.field.length unobs.field.length :=
      le_trans (List.countP_le_length _) (le_of_eq (List.length_zip _ _))
    have hr := count_ratio_bounds _ _ hcnt hm
    exact ⟨by linarith [hr.1, hfcs.1], by linarith [hr.2, hfcs.2], by norm_num⟩
  · exact ⟨hfcs.1, hfcs.2, le_refl 1⟩

theorem cmsP3_scoreInv (obfs unobs : MessageType)
    (h1 : 0 < obfs.field.length) :
    scoreInv (cmsP3 obfs unobs) := by
  unfold cmsP3
  refine scoreInv_ite _ _ _ (fun ho => ?_) (fun _ => cmsP2_scoreInv obfs unobs h1)
  refine scoreInv_foldl _ _
    (fun p i hp => scoreInv_step hp (compareOneofFields_bounds _ _)) _ ?_
  exact scoreInv_step (cmsP2_scoreInv obfs unobs h1)
    (countSimilarity_bounds _ _ (lt_max_iff.mpr ho))

theorem cmsChecks_scoreInv (obfs unobs : MessageType)
    (h1 : 0 < obfs.field.length) :
    scoreInv (cmsChecks obfs unobs) := by
  unfold cmsChecks
  refine scoreInv_ite _ _ _ (fun hn => ?_) (fun _ => cmsP3_scoreInv obfs unobs h1)
  exact scoreInv_step (cmsP3_scoreInv obfs unobs h1)
    (countSimilarity_bounds _ _ (lt_max_iff.mpr hn))

theorem cms_snd_bounds (o u : MessageType) :
    0 ≤ (compareMessageStructures o u).2 ∧
      (compareMessageStructures o u).2 ≤ 100 := by
  unfold compareMessageStructures
  dsimp only
  split
  · norm_num
  · rename_i hf
    push_neg at hf
    split
    · norm_num
    · have hinv := cmsChecks_scoreInv o u (Nat.pos_of_ne_zero hf.1)
      obtain ⟨h0, h1, h2⟩ := hinv
      have hpos : 0 < (cmsChecks o u).2 := by linarith
      have hdle : (cmsChecks o u).1 / (cmsChecks o u).2 ≤ 1 := (div_le_one hpos).mpr h1
      have hdnn : 0 ≤ (cmsChecks o u).1 / (cmsChecks o u).2 := div_nonneg h0 hpos.le
      constructor
      · dsimp only
        nlinarith
      · dsimp only
        nlinarith

theorem cms_fst_eq (o u : MessageType) :
    (compareMessageStructures o u).1 =
      decide ((compareMessageStructures o u).2 ≥ 80) := by
  unfold compareMessageStructures
  dsimp only
  split
  · exact (decide_eq_false (by norm_num)).symm
  · split
    · exact (decide_eq_false (by norm_num)).symm
    · rfl

theorem isPerfect_iff (o u : MessageType) :
    isPerfectStructureMatch o u = true ↔
      (compareMessageStructures o u).2 = 100 := by
  unfold isPerfectStructureMatch
  rw [cms_fst_eq]
  simp only [Bool.and_eq_true, decide_eq_true_eq]
  constructor
  · rintro ⟨-, h⟩
    exact h
  · intro h
    exact ⟨by rw [h]; norm_num, h⟩

theorem compareEnums_conf_bounds (A B : EnumType) (c : ℚ)
    (h : (compareEnums A B).2 = some c) : 0 ≤ c ∧ c ≤ 100 := by
  unfold compareEnums at h
  dsimp only at h
  split at h
  · split at h
    · simp at h
    · rename_i hmax
      dsimp only at h
      rw [Option.some_inj] at h
      have hle : matchingCount (enumMap A.value) (enumMap B.value) ≤
          max (enumMap A.value).length (enumMap B.value).length :=
        le_trans (matchingCount_le_left _ _) (le_max_left _ _)
      have hr := count_ratio_bounds _ _ hle (Nat.pos_of_ne_zero hmax)
      constructor
      · rw [← h]; nlinarith [hr.1]
      · rw [← h]; nlinarith [hr.2]
  · dsimp only at h
    rw [Option.some_inj] at h
    rw [← h]
    norm_num

/-- C5 counterexample: on two enums with empty value lists the Go code
computes confidence 0.0/0.0, a float NaN (modelled none), which does not lie
in the interval 0 to 100; the match decision is even true. -/
theorem C5_counterexample : compareEnums ⟨"E", []⟩ ⟨"F", []⟩ = (true, none) := rfl

/-- C5 amended: every real (non-NaN) confidence produced by compareEnums
lies in 0..100, and the confidence of compareMessageStructures always lies
in 0..100 (its divisions never divide by zero). -/
theorem C5_confidence_bounds (A B : EnumType) (o u : MessageType) (c : ℚ) :
    ((compareEnums A B).2 = some c → 0 ≤ c ∧ c ≤ 100) ∧
      (0 ≤ (compareMessageStructures o u).2 ∧
        (compareMessageStructures o u).2 ≤ 100) :=
  ⟨fun h => compareEnums_conf_bounds A B c h, cms_snd_bounds o u⟩

/-- C5 witness: the bounds at a concrete enum pair with confidence 100 and a
concrete message pair. -/
theorem C5_witness :
    (0 ≤ (100 : ℚ) ∧ (100 : ℚ) ≤ 100) ∧
      (0 ≤ (compareMessageStructures msgO msgR1).2 ∧
        (compareMessageStructures msgO msgR1).2 ≤ 100) := by
  have h2 : (compareEnums ⟨"E", [⟨"A", 0⟩]⟩ ⟨"E", [⟨"A", 0⟩]⟩).2 = some 100 := by
    have hs := compareEnums_snd_of_match ⟨"E", [⟨"A", 0⟩]⟩ ⟨"E", [⟨"A", 0⟩]⟩
      (by decide)
    rw [hs, if_neg (by decide)]
    have hmc : matchingCount (enumMap [⟨"A", 0⟩]) (enumMap [⟨"A", 0⟩]) = 1 := by
      decide
    have hl : (enumMap [(⟨"A", 0⟩ : EnumValue)]).length = 1 := by decide
    dsimp only
    rw [hmc, hl]
    norm_num
  exact ⟨(C5_confidence_bounds ⟨"E", [⟨"A", 0⟩]⟩ ⟨"E", [⟨"A", 0⟩]⟩
    msgO msgR1 100).1 h2,
    (C5_confidence_bounds ⟨"E", [⟨"A", 0⟩]⟩ ⟨"E", [⟨"A", 0⟩]⟩ msgO msgR1 100).2⟩

/-! ## Structure matcher: step and pass lemmas -/

theorem contains_iff_mem (l : List String) (x : String) :
    l.contains x = true ↔ x ∈ l := by
  unfold List.contains
  exact List.elem_iff

theorem contains_ext {l1 l2 : List String} (h : ∀ x, x ∈ l1 ↔ x ∈ l2)
    (x : String) : l1.contains x = l2.contains x := by
  by_cases hx : x ∈ l1
  · rw [(contains_iff_mem l1 x).mpr hx, ((contains_iff_mem l2 x).mpr ((h x).mp hx))]
  · have hx2 : x ∉ l2 := fun hc => hx ((h x).mpr hc)
    have e1 : l1.contains x = false := by
      cases hc : l1.contains x
      · rfl
      · exact absurd ((contains_iff_mem l1 x).mp hc) hx
    have e2 : l2.contains x = false := by
      cases hc : l2.contains x
      · rfl
      · exact absurd ((contains_iff_mem l2 x).mp hc) hx2
    rw [e1, e2]

theorem processObsMsg_of_failCond {st : SMState} {o : MessageType}
    (h : failCond st o) : processObsMsg st o = st := by
  unfold processObsMsg
  by_cases hc : st.matchedObs.contains o.name = true
  · rw [if_pos hc]
  · rw [if_neg hc]
    rcases h with h | h
    · exact absurd h hc
    · rcases hcand : candidatesFor st o with _ | ⟨a, _ | ⟨b, t⟩⟩
      · rfl
      · exact absurd (by simp [hcand]) h
      · rfl

theorem processObsMsg_accept {st : SMState} {o u : MessageType}
    (hc : st.matchedObs.contains o.name = false)
    (hcand : candidatesFor st o = [u]) :
    processObsMsg st o = acceptState st o u := by
  unfold processObsMsg
  rw [if_neg (by rw [hc]; simp), hcand]

theorem processObsMsg_changed_mono {st : SMState} {o : MessageType}
    (h : st.changed = true) : (processObsMsg st o).changed = true := by
  unfold processObsMsg
  split
  · exact h
  · split
    · rfl
    · exact h

theorem foldl_changed_mono (l : List MessageType) (st : SMState)
    (h : st.changed = true) : (l.foldl processObsMsg st).changed = true := by
  induction l generalizing st with
  | nil => exact h
  | cons o rest ih => exact ih _ (processObsMsg_changed_mono h)

theorem processObsMsg_pools (st : SMState) (o : MessageType) :
    (processObsMsg st o).unmatchedObs = st.unmatchedObs ∧
      (processObsMsg st o).unmatchedUnobs = st.unmatchedUnobs := by
  unfold processObsMsg
  split
  · exact ⟨rfl, rfl⟩
  · split
    · exact ⟨rfl, rfl⟩
    · exact ⟨rfl, rfl⟩

theorem foldl_pools (l : List MessageType) (st : SMState) :
    (l.foldl processObsMsg st).unmatchedObs = st.unmatchedObs ∧
      (l.foldl processObsMsg st).unmatchedUnobs = st.unmatchedUnobs := by
  induction l generalizing st with
  | nil => exact ⟨rfl, rfl⟩
  | cons o rest ih =>
    refine ⟨?_, ?_⟩
    · rw [List.foldl_cons, (ih _).1, (processObsMsg_pools st o).1]
    · rw [List.foldl_cons, (ih _).2, (processObsMsg_pools st o).2]

theorem processObsMsg_matched_mono (st : SMState) (o : MessageType) :
    (∀ x ∈ st.matchedObs, x ∈ (processObsMsg st o).matchedObs) ∧
      (∀ x ∈ st.matchedUnobs, x ∈ (processObsMsg st o).matchedUnobs) := by
  unfold processObsMsg
  split
  · exact ⟨fun x hx => hx, fun x hx => hx⟩
  · split
    · exact ⟨fun x hx => List.mem_cons_of_mem _ hx,
        fun x hx => List.mem_cons_of_mem _ hx⟩
    · exact ⟨fun x hx => hx, fun x hx => hx⟩

theorem foldl_matched_mono (l : List MessageType) (st : SMState) :
    (∀ x ∈ st.matchedObs, x ∈ (l.foldl processObsMsg st).matchedObs) ∧
      (∀ x ∈ st.matchedUnobs, x ∈ (l.foldl processObsMsg st).matchedUnobs) := by
  induction l generalizing st with
  | nil => exact ⟨fun x hx => hx, fun x hx => hx⟩
  | cons o rest ih =>
    refine ⟨?_, ?_⟩
    · intro x hx
      exact (ih _).1 x ((processObsMsg_matched_mono st o).1 x hx)
    · intro x hx
      exact (ih _).2 x ((processObsMsg_matched_mono st o).2 x hx)

theorem foldl_changed_false {l : List MessageType} :
    ∀ {s : SMState}, (l.foldl processObsMsg s).changed = false →
      l.foldl processObsMsg s = s ∧ ∀ o ∈ l, failCond s o := by
  induction l with
  | nil =>
    intro s h
    exact ⟨rfl, by simp⟩
  | cons o rest ih =>
    intro s h
    by_cases hfc : failCond s o
    · rw [List.foldl_cons, processObsMsg_of_failCond hfc] at h ⊢
      obtain ⟨he, hall⟩ := ih h
      refine ⟨he, ?_⟩
      intro x hx
      rcases List.mem_cons.mp hx with rfl | hx
      · exact hfc
      · exact hall x hx
    · exfalso
      unfold failCond at hfc
      push_neg at hfc
      obtain ⟨hc, hlen⟩ := hfc
      have hc2 : s.matchedObs.contains o.name = false := by
        cases hcb : s.matchedObs.contains o.name
        · rfl
        · exact absurd hcb hc
      obtain ⟨u, hu⟩ := List.length_eq_one.mp hlen
      rw [List.foldl_cons, processObsMsg_accept hc2 hu] at h
      have hch : (rest.foldl processObsMsg (acceptState s o u)).changed = true :=
        foldl_changed_mono _ _ rfl
      rw [hch] at h
      simp at h

theorem smLoop_succ (fuel : ℕ) (st : SMState) :
    smLoop (fuel + 1) st =
      if (onePass st).changed = true then smLoop fuel (onePass st)
      else onePass st := rfl

theorem foldl_of_all_failCond (l : List MessageType) (s : SMState) :
    (∀ o ∈ l, failCond s o) → l.foldl processObsMsg s = s := by
  induction l with
  | nil => intro _; rfl
  | cons o rest ih =>
    intro h
    rw [List.foldl_cons, processObsMsg_of_failCond (h o (by simp))]
    exact ih (fun x hx => h x (List.mem_cons_of_mem o hx))

theorem rebuildPools_changed (s : SMState) :
    (rebuildPools s).changed = s.changed := rfl

theorem setChanged_eq_self {s : SMState} (h : s.changed = false) :
    { s with changed := false } = s := by
  cases s with
  | mk a b c d e f =>
    dsimp only at h ⊢
    rw [h]

theorem onePass_of_noAccept {st : SMState} (h : noAccept st) :
    onePass st = { st with changed := false } := by
  unfold onePass
  dsimp only
  rw [foldl_of_all_failCond st.unmatchedObs { st with changed := false } h]
  rw [if_neg (by simp)]

theorem onePass_changed_false {st : SMState}
    (h : (onePass st).changed = false) :
    onePass st = { st with changed := false } ∧ noAccept st := by
  by_cases hc :
      (st.unmatchedObs.foldl processObsMsg { st with changed := false }).changed = true
  · exfalso
    unfold onePass at h
    dsimp only at h
    rw [if_pos hc, rebuildPools_changed, hc] at h
    simp at h
  · have hcf :
        (st.unmatchedObs.foldl processObsMsg { st with changed := false }).changed =
          false := by
      cases hb :
          (st.unmatchedObs.foldl processObsMsg { st with changed := false }).changed
      · rfl
      · exact absurd hb hc
    obtain ⟨he, hall⟩ := foldl_changed_false hcf
    unfold onePass
    dsimp only
    rw [if_neg hc, he]
    exact ⟨rfl, hall⟩

theorem onePass_changed_irrel (st : SMState) (b : Bool) :
    onePass { st with changed := b } = onePass st := rfl

theorem length_filter_lt {α : Type} (l : List α) (p : α → Bool) (x : α)
    (hx : x ∈ l) (hpx : p x = false) : (l.filter p).length < l.length := by
  refine Nat.lt_of_le_of_ne (List.length_filter_le p l) ?_
  intro heq
  have := List.filter_length_eq_length.mp heq x hx
  rw [hpx] at this
  simp at this

theorem foldl_changed_true_exists (l : List MessageType) :
    ∀ s : SMState, s.changed = false →
      (l.foldl processObsMsg s).changed = true →
      ∃ o ∈ l, (l.foldl processObsMsg s).matchedObs.contains o.name = true := by
  induction l with
  | nil =>
    intro s h0 h
    rw [List.foldl_nil] at h
    rw [h0] at h
    simp at h
  | cons o rest ih =>
    intro s h0 h
    by_cases hfc : failCond s o
    · rw [List.foldl_cons, processObsMsg_of_failCond hfc] at h ⊢
      obtain ⟨x, hx, hcx⟩ := ih s h0 h
      exact ⟨x, List.mem_cons_of_mem o hx, hcx⟩
    · unfold failCond at hfc
      push_neg at hfc
      obtain ⟨hcn, hlen⟩ := hfc
      have hc2 : s.matchedObs.contains o.name = false := by
        cases hcb : s.matchedObs.contains o.name
        · rfl
        · exact absurd hcb hcn
      obtain ⟨u, hu⟩ := List.length_eq_one.mp hlen
      rw [List.foldl_cons, processObsMsg_accept hc2 hu] at h ⊢
      refine ⟨o, List.mem_cons_self o rest, ?_⟩
      apply (contains_iff_mem _ _).mpr
      exact (foldl_matched_mono rest (acceptState s o u)).1 o.name
        (List.mem_cons_self _ _)

theorem onePass_pool_decrease {st : SMState}
    (h : (onePass st).changed = true) :
    (onePass st).unmatchedObs.length < st.unmatchedObs.length := by
  unfold onePass at h ⊢
  dsimp only at h ⊢
  by_cases hc :
      (st.unmatchedObs.foldl processObsMsg { st with changed := false }).changed = true
  · rw [if_pos hc] at h ⊢
    have hpool :
        (st.unmatchedObs.foldl processObsMsg
          { st with changed := false }).unmatchedObs = st.unmatchedObs :=
      (foldl_pools _ _).1
    obtain ⟨o, ho, hco⟩ :=
      foldl_changed_true_exists st.unmatchedObs { st with changed := false } rfl hc
    show ((st.unmatchedObs.foldl processObsMsg
        { st with changed := false }).unmatchedObs.filter _).length < _
    rw [hpool]
    apply length_filter_lt _ _ o ho
    rw [hco]
    rfl
  · rw [if_neg hc] at h
    exact absurd h hc

theorem smLoop_noAccept : ∀ (fuel : ℕ) (st : SMState),
    st.unmatchedObs.length < fuel →
    noAccept (smLoop fuel st) ∧ (smLoop fuel st).changed = false := by
  intro fuel
  induction fuel with
  | zero => intro st h; exact absurd h (Nat.not_lt_zero _)
  | succ n ih =>
    intro st h
    by_cases hc : (onePass st).changed = true
    · have hlt : (onePass st).unmatchedObs.length < n := by
        have := onePass_pool_decrease hc
        omega
      rw [smLoop_succ, if_pos hc]
      exact ih (onePass st) hlt
    · have hcf : (onePass st).changed = false := by
        cases hb : (onePass st).changed
        · rfl
        · exact absurd hb hc
      obtain ⟨he, hna⟩ := onePass_changed_false hcf
      rw [smLoop_succ, if_neg hc, he]
      exact ⟨hna, rfl⟩

theorem smLoop_fuel_irrel : ∀ (f1 f2 : ℕ) (st : SMState),
    st.unmatchedObs.length < f1 → st.unmatchedObs.length < f2 →
    smLoop f1 st = smLoop f2 st := by
  intro f1
  induction f1 with
  | zero => intro f2 st h1 _; exact absurd h1 (Nat.not_lt_zero _)
  | succ n ih =>
    intro f2 st h1 h2
    cases f2 with
    | zero => exact absurd h2 (Nat.not_lt_zero _)
    | succ m =>
      by_cases hc : (onePass st).changed = true
      · have hd := onePass_pool_decrease hc
        rw [smLoop_succ, smLoop_succ, if_pos hc, if_pos hc]
        exact ih m (onePass st) (by omega) (by omega)
      · rw [smLoop_succ, smLoop_succ, if_neg hc, if_neg hc]

theorem foldl_inv (P : SMState → Prop)
    (hstep : ∀ st o, P st → P (processObsMsg st o)) :
    ∀ (l : List MessageType) (st : SMState), P st → P (l.foldl processObsMsg st) := by
  intro l
  induction l with
  | nil => intro st hp; exact hp
  | cons o rest ih =>
    intro st hp
    exact ih _ (hstep st o hp)

theorem onePass_inv (P : SMState → Prop)
    (hstep : ∀ st o, P st → P (processObsMsg st o))
    (hreset : ∀ st b, P st → P { st with changed := b })
    (hrebuild : ∀ st, P st → P (rebuildPools st)) :
    ∀ st, P st → P (onePass st) := by
  intro st hp
  unfold onePass
  dsimp only
  split
  · exact hrebuild _ (foldl_inv P hstep _ _ (hreset st false hp))
  · exact foldl_inv P hstep _ _ (hreset st false hp)

theorem smLoop_inv (P : SMState → Prop)
    (hpass : ∀ st, P st → P (onePass st)) :
    ∀ (fuel : ℕ) (st : SMState), P st → P (smLoop fuel st) := by
  intro fuel
  induction fuel with
  | zero => intro st hp; exact hp
  | succ n ih =>
    intro st hp
    rw [smLoop_succ]
    split
    · exact ih _ (hpass st hp)
    · exact hpass st hp

theorem onePass_iterate_fixed : ∀ (n : ℕ) (st : SMState),
    st.unmatchedObs.length ≤ n →
    onePass (onePass^[n] st) = { (onePass^[n] st) with changed := false } := by
  intro n
  induction n with
  | zero =>
    intro st h
    have hnil : st.unmatchedObs = [] := List.length_eq_zero.mp (Nat.le_zero.mp h)
    simp only [Function.iterate_zero, id_eq]
    apply onePass_of_noAccept
    intro o ho
    rw [hnil] at ho
    simp at ho
  | succ n ih =>
    intro st h
    rw [Function.iterate_succ_apply]
    by_cases hc : (onePass st).changed = true
    · exact ih (onePass st) (by have := onePass_pool_decrease hc; omega)
    · have hcf : (onePass st).changed = false := by
        cases hb : (onePass st).changed
        · rfl
        · exact absurd hb hc
      obtain ⟨he, _⟩ := onePass_changed_false hcf
      have hfix : onePass (onePass st) = onePass st := by
        rw [he, onePass_changed_irrel st false, he]
      rw [Function.iterate_fixed hfix n, hfix, setChanged_eq_self hcf]

/-- C7: for N initially unmatched obfuscated messages the peeling loop of
the Structure Matcher reaches its fixed point within N passes — the pass
after the N-th changes nothing (it only resets the somethingChanged flag) —
and any fuel beyond N passes gives the same loop result, so the Go
while-somethingChanged loop terminates. -/
theorem C7_peeling_terminates (obf unobf : Descriptor)
    (em : List MessageMatch) :
    onePass (onePass^[(initState obf unobf em).unmatchedObs.length]
        (initState obf unobf em)) =
      { (onePass^[(initState obf unobf em).unmatchedObs.length]
          (initState obf unobf em)) with changed := false } ∧
    ∀ fuel, (initState obf unobf em).unmatchedObs.length < fuel →
      smLoop fuel (initState obf unobf em) =
        smLoop ((initState obf unobf em).unmatchedObs.length + 1)
          (initState obf unobf em) :=
  ⟨onePass_iterate_fixed _ _ (le_refl _),
    fun fuel hf => smLoop_fuel_irrel fuel _ _ hf (Nat.lt_succ_self _)⟩

/-- C7 witness: at a concrete input with one unmatched message, running the
loop with any larger fuel gives the same result as the canonical fuel. -/
theorem C7_witness :
    smLoop 3 (initState descO descR1 []) =
      smLoop ((initState descO descR1 []).unmatchedObs.length + 1)
        (initState descO descR1 []) :=
  (C7_peeling_terminates descO descR1 []).2 3 (by decide)

theorem contains_eq_false_iff (l : List String) (x : String) :
    l.contains x = false ↔ x ∉ l := by
  constructor
  · intro h hx
    rw [(contains_iff_mem l x).mpr hx] at h
    simp at h
  · intro h
    cases hc : l.contains x
    · rfl
    · exact absurd ((contains_iff_mem l x).mp hc) h

theorem getOneofFields_congr {u1 u2 : MessageType} (h : u1.field = u2.field) :
    ∀ i : Int, getOneofFields u1 i = getOneofFields u2 i := by
  intro i
  unfold getOneofFields
  rw [h]

theorem cms_congr_right {u1 u2 : MessageType} (hf : u1.field = u2.field)
    (ho : u1.oneOfDecl = u2.oneOfDecl) (hn : u1.nestedType = u2.nestedType)
    (o : MessageType) :
    compareMessageStructures o u1 = compareMessageStructures o u2 := by
  have hg := getOneofFields_congr hf
  unfold compareMessageStructures cmsChecks cmsP3 cmsP2 countSimilarity
  simp only [hf, ho, hn, hg]

theorem isPerfect_congr_right {u1 u2 : MessageType} (hf : u1.field = u2.field)
    (ho : u1.oneOfDecl = u2.oneOfDecl) (hn : u1.nestedType = u2.nestedType)
    (o : MessageType) :
    isPerfectStructureMatch o u1 = isPerfectStructureMatch o u2 := by
  unfold isPerfectStructureMatch
  rw [cms_congr_right hf ho hn o]

theorem twinsInv_step (unobf : Descriptor) (u1 u2 : MessageType)
    (hnodup : (unobf.messageType.map MessageType.name).Nodup)
    (hne : u1.name ≠ u2.name)
    (hiso : ∀ o, isPerfectStructureMatch o u1 = isPerfectStructureMatch o u2) :
    ∀ (st : SMState) (o : MessageType),
      twinsInv unobf u1 u2 st → twinsInv unobf u1 u2 (processObsMsg st o) := by
  intro st o hp
  unfold processObsMsg
  split
  · exact hp
  · split
    · rename_i u hcand
      obtain ⟨⟨hu1p, hu2p⟩, ⟨hc1, hc2⟩, hsub, hfm⟩ := hp
      have humem : u ∈ candidatesFor st o := by
        rw [hcand]
        exact List.mem_singleton_self u
      have hufilter := List.mem_filter.mp humem
      obtain ⟨hupool, hupred⟩ := hufilter
      rw [Bool.and_eq_true] at hupred
      obtain ⟨huc, hup⟩ := hupred
      have huU : u ∈ unobf.messageType := hsub u hupool
      have hinj := List.inj_on_of_nodup_map hnodup
      have hne1 : u.name ≠ u1.name := by
        intro heqn
        have hu_eq : u = u1 := hinj huU (hsub u1 hu1p) heqn
        have h2cand : u2 ∈ candidatesFor st o := by
          apply List.mem_filter.mpr
          refine ⟨hu2p, ?_⟩
          rw [Bool.and_eq_true]
          constructor
          · rw [hc2]
            rfl
          · rw [← hiso o, ← hu_eq]
            exact hup
        rw [hcand] at h2cand
        have : u2 = u := List.mem_singleton.mp h2cand
        exact hne (by rw [← hu_eq, this])
      have hne2 : u.name ≠ u2.name := by
        intro heqn
        have hu_eq : u = u2 := hinj huU (hsub u2 hu2p) heqn
        have h1cand : u1 ∈ candidatesFor st o := by
          apply List.mem_filter.mpr
          refine ⟨hu1p, ?_⟩
          rw [Bool.and_eq_true]
          constructor
          · rw [hc1]
            rfl
          · rw [hiso o, ← hu_eq]
            exact hup
        rw [hcand] at h1cand
        have : u1 = u := List.mem_singleton.mp h1cand
        exact hne (by rw [this, hu_eq])
      refine ⟨⟨hu1p, hu2p⟩, ⟨?_, ?_⟩, hsub, ?_⟩
      · apply (contains_eq_false_iff _ _).mpr
        intro hmem
        rcases List.mem_cons.mp hmem with h | h
        · exact hne1 h.symm
        · exact absurd h ((contains_eq_false_iff _ _).mp hc1)
      · apply (contains_eq_false_iff _ _).mpr
        intro hmem
        rcases List.mem_cons.mp hmem with h | h
        · exact hne2 h.symm
        · exact absurd h ((contains_eq_false_iff _ _).mp hc2)
      · intro m hm
        rcases List.mem_append.mp hm with h | h
        · exact hfm m h
        · have : m = ⟨o.name, o.sourceFile, u.name, u.sourceFile,
              (compareMessageStructures o u).2, []⟩ := List.mem_singleton.mp h
          rw [this]
          exact ⟨hne1, hne2⟩
    · exact hp

theorem twinsInv_rebuild (unobf : Descriptor) (u1 u2 : MessageType) :
    ∀ st : SMState, twinsInv unobf u1 u2 st →
      twinsInv unobf u1 u2 (rebuildPools st) := by
  intro st hp
  obtain ⟨⟨hu1p, hu2p⟩, ⟨hc1, hc2⟩, hsub, hfm⟩ := hp
  refine ⟨⟨?_, ?_⟩, ⟨hc1, hc2⟩, ?_, hfm⟩
  · apply List.mem_filter.mpr
    refine ⟨hu1p, ?_⟩
    rw [hc1]
    rfl
  · apply List.mem_filter.mpr
    refine ⟨hu2p, ?_⟩
    rw [hc2]
    rfl
  · intro x hx
    exact hsub x (List.mem_filter.mp hx).1

/-- C2: a perfect structure match is exactly confidence 100; in every pass an
unmatched obfuscated message is accepted precisely when exactly one
still-unmatched reference candidate is a perfect match (with zero or several
perfect candidates the state is left untouched and the message waits for a
later pass); and two reference messages with identical field shapes (and no
prior enum match) are never matched — neither name ever appears in the
output, even at the fixed point. -/
theorem C2_unique_perfect_candidate :
    (∀ o u : MessageType,
      isPerfectStructureMatch o u = true ↔
        (compareMessageStructures o u).2 = 100) ∧
    (∀ (st : SMState) (o : MessageType),
      st.matchedObs.contains o.name = false →
      (∀ u, candidatesFor st o = [u] → processObsMsg st o = acceptState st o u) ∧
      ((candidatesFor st o).length ≠ 1 → processObsMsg st o = st)) ∧
    (∀ (obf unobf : Descriptor) (em : List MessageMatch) (u1 u2 : MessageType),
      (unobf.messageType.map MessageType.name).Nodup →
      u1 ∈ unobf.messageType → u2 ∈ unobf.messageType →
      u1.name ≠ u2.name →
      u1.field = u2.field → u1.oneOfDecl = u2.oneOfDecl →
      u1.nestedType = u2.nestedType →
      (em.map (fun m => m.originalMsg)).contains u1.name = false →
      (em.map (fun m => m.originalMsg)).contains u2.name = false →
      ∀ m ∈ FindStrictStructureBasedMatches obf unobf em,
        m.originalMsg ≠ u1.name ∧ m.originalMsg ≠ u2.name) := by
  refine ⟨isPerfect_iff, ?_, ?_⟩
  · intro st o hc
    constructor
    · intro u hu
      exact processObsMsg_accept hc hu
    · intro hlen
      exact processObsMsg_of_failCond (Or.inr hlen)
  · intro obf unobf em u1 u2 hnodup hm1 hm2 hne hf ho hn hem1 hem2
    have hiso := fun o => isPerfect_congr_right hf ho hn o
    have hinit : twinsInv unobf u1 u2 (initState obf unobf em) := by
      refine ⟨⟨?_, ?_⟩, ⟨hem1, hem2⟩, ?_, ?_⟩
      · apply List.mem_filter.mpr
        refine ⟨hm1, ?_⟩
        rw [hem1]
        rfl
      · apply List.mem_filter.mpr
        refine ⟨hm2, ?_⟩
        rw [hem2]
        rfl
      · intro x hx
        exact (List.mem_filter.mp hx).1
      · intro m hm
        exact absurd hm (List.not_mem_nil m)
    have hfin := smLoop_inv (twinsInv unobf u1 u2)
      (onePass_inv (twinsInv unobf u1 u2)
        (twinsInv_step unobf u1 u2 hnodup hne hiso)
        (fun st b hp => hp)
        (twinsInv_rebuild unobf u1 u2))
      ((initState obf unobf em).unmatchedObs.length + 1)
      (initState obf unobf em) hinit
    intro m hm
    exact hfin.2.2.2 m hm

/-- C2 witness: the concrete two-identical-candidates state defers msgO:
processing it leaves the state untouched. -/
theorem C2_witness :
    processObsMsg (initState descO descR []) msgO = initState descO descR [] := by
  refine (C2_unique_perfect_candidate.2.1 (initState descO descR []) msgO ?_).2 ?_
  · decide
  · have hc : candidatesFor (initState descO descR []) msgO = [msgR1, msgR2] := by
      simp [candidatesFor, initState, descO, descR, msgO, msgR1, msgR2,
        isPerfectStructureMatch, compareMessageStructures, cmsChecks, cmsP3,
        cmsP2, countSimilarity, compareFields, compareTypes, contains,
        primitiveTypes, fieldInt32, MessageType.field, MessageType.oneOfDecl,
        MessageType.nestedType, MessageType.name]
      norm_num
    rw [hc]
    simp

theorem onetoOneInv_step (emObs emOrig : List String) :
    ∀ (st : SMState) (o : MessageType),
      onetoOneInv emObs emOrig st → onetoOneInv emObs emOrig (processObsMsg st o) := by
  intro st o hp
  unfold processObsMsg
  split
  · exact hp
  · rename_i hno
    split
    · rename_i u hcand
      dsimp only [acceptState]
      obtain ⟨⟨hnd1, hnd2⟩, hmem, ⟨hsub1, hsub2⟩, hfresh⟩ := hp
      have honame : o.name ∉ st.matchedObs := by
        intro hmemo
        exact hno ((contains_iff_mem _ _).mpr hmemo)
      have humem : u ∈ candidatesFor st o := by
        rw [hcand]
        exact List.mem_singleton_self u
      obtain ⟨hupool, hupred⟩ := List.mem_filter.mp humem
      rw [Bool.and_eq_true] at hupred
      have huname : u.name ∉ st.matchedUnobs := by
        intro hmemu
        have := (contains_iff_mem _ _).mpr hmemu
        rw [this] at hupred
        simp at hupred
      constructor
      · constructor
        · rw [List.map_append, List.nodup_append]
          refine ⟨hnd1, by simp, ?_⟩
          intro x hx hx1
          simp only [List.map_cons, List.map_nil, List.mem_singleton] at hx1
          rcases List.mem_map.mp hx with ⟨m, hm, hmx⟩
          exact honame (hx1 ▸ hmx ▸ (hmem m hm).1)
        · rw [List.map_append, List.nodup_append]
          refine ⟨hnd2, by simp, ?_⟩
          intro x hx hx1
          simp only [List.map_cons, List.map_nil, List.mem_singleton] at hx1
          rcases List.mem_map.mp hx with ⟨m, hm, hmx⟩
          exact huname (hx1 ▸ hmx ▸ (hmem m hm).2)
      constructor
      · intro m hm
        rcases List.mem_append.mp hm with h | h
        · exact ⟨List.mem_cons_of_mem _ (hmem m h).1,
            List.mem_cons_of_mem _ (hmem m h).2⟩
        · have hmeq : m = ⟨o.name, o.sourceFile, u.name, u.sourceFile,
              (compareMessageStructures o u).2, []⟩ := List.mem_singleton.mp h
          rw [hmeq]
          exact ⟨List.mem_cons_self _ _, List.mem_cons_self _ _⟩
      constructor
      · exact ⟨fun x hx => List.mem_cons_of_mem _ (hsub1 x hx),
          fun x hx => List.mem_cons_of_mem _ (hsub2 x hx)⟩
      · intro m hm
        rcases List.mem_append.mp hm with h | h
        · exact hfresh m h
        · have hmeq : m = ⟨o.name, o.sourceFile, u.name, u.sourceFile,
              (compareMessageStructures o u).2, []⟩ := List.mem_singleton.mp h
          rw [hmeq]
          exact ⟨fun hx => honame (hsub1 _ hx), fun hx => huname (hsub2 _ hx)⟩
    · exact hp

/-- C10 counterexample: with an enum-stage match whose OriginalMsg is X, the
Structure Matcher still emits a match whose ObfuscatedMsg is X — the two
name spaces are tracked separately, so a name occurring in the enumMatches
input can reappear in the output on the other side. -/
theorem C10_counterexample :
    FindStrictStructureBasedMatches descX descY emX =
      [⟨"X", "x.proto", "Y", "y.proto", 100, []⟩] ∧
    (emX.map (fun m => m.originalMsg)).contains "X" = true := by
  constructor
  · have hperf : isPerfectStructureMatch msgX msgY = true := by
      rw [isPerfect_iff]
      norm_num [compareMessageStructures, cmsChecks, cmsP3, cmsP2,
        countSimilarity, compareFields, compareTypes, contains, primitiveTypes,
        msgX, msgY, fieldInt32, MessageType.field, MessageType.oneOfDecl,
        MessageType.nestedType]
    have hcms : (compareMessageStructures msgX msgY).2 = 100 :=
      (isPerfect_iff _ _).mp hperf
    have h0 : initState descX descY emX =
        ⟨["A"], ["X"], [msgX], [msgY], [], false⟩ := rfl
    have hcand :
        candidatesFor (⟨["A"], ["X"], [msgX], [msgY], [], false⟩ : SMState) msgX =
          [msgY] := by
      simp [candidatesFor, List.filter, hperf, show msgY.name = "Y" from rfl]
    have hop : onePass (⟨["A"], ["X"], [msgX], [msgY], [], false⟩ : SMState) =
        ⟨["X", "A"], ["Y", "X"], [], [],
          [⟨"X", "x.proto", "Y", "y.proto", 100, []⟩], true⟩ := by
      unfold onePass
      dsimp only
      rw [List.foldl_cons, List.foldl_nil,
        processObsMsg_accept (by rfl) hcand]
      dsimp only [acceptState, rebuildPools]
      rw [hcms]
      simp [msgX, msgY, MessageType.name, MessageType.sourceFile]
    have hop2 : onePass (⟨["X", "A"], ["Y", "X"], [], [],
        [⟨"X", "x.proto", "Y", "y.proto", 100, []⟩], true⟩ : SMState) =
        ⟨["X", "A"], ["Y", "X"], [], [],
          [⟨"X", "x.proto", "Y", "y.proto", 100, []⟩], false⟩ := by
      apply onePass_of_noAccept
      intro o ho
      simp at ho
    unfold FindStrictStructureBasedMatches
    dsimp only
    rw [h0]
    show (smLoop 2 _).foundMatches = _
    rw [smLoop_succ, hop, if_pos rfl, smLoop_succ, hop2, if_neg (by simp)]
  · rfl

/-- C10 amended: the Structure Matcher output is one-to-one — no two matches
share an ObfuscatedMsg name and no two share an OriginalMsg name — and fresh
per side: no match reuses a name that enumMatches already claimed on the
same side (an ObfuscatedMsg of enumMatches as ObfuscatedMsg, an OriginalMsg
as OriginalMsg).  Freshness across sides does not hold, as the
counterexample shows. -/
theorem C10_one_to_one_fresh (obf unobf : Descriptor) (em : List MessageMatch) :
    ((FindStrictStructureBasedMatches obf unobf em).map
      (fun m => m.obfuscatedMsg)).Nodup ∧
    ((FindStrictStructureBasedMatches obf unobf em).map
      (fun m => m.originalMsg)).Nodup ∧
    (FindStrictStructureBasedMatches obf unobf em).all
      (fun m => !(em.map (fun x => x.obfuscatedMsg)).contains m.obfuscatedMsg &&
        !(em.map (fun x => x.originalMsg)).contains m.originalMsg) = true := by
  have hinit : onetoOneInv (em.map (fun x => x.obfuscatedMsg))
      (em.map (fun x => x.originalMsg)) (initState obf unobf em) := by
    refine ⟨⟨by simp [initState], by simp [initState]⟩, ?_,
      ⟨fun x hx => hx, fun x hx => hx⟩, ?_⟩
    · intro m hm
      exact absurd hm (List.not_mem_nil m)
    · intro m hm
      exact absurd hm (List.not_mem_nil m)
  have hfin := smLoop_inv _
    (onePass_inv _
      (onetoOneInv_step (em.map (fun x => x.obfuscatedMsg))
        (em.map (fun x => x.originalMsg)))
      (fun st b hp => hp)
      (fun st hp => hp))
    ((initState obf unobf em).unmatchedObs.length + 1)
    (initState obf unobf em) hinit
  refine ⟨hfin.1.1, hfin.1.2, ?_⟩
  rw [List.all_eq_true]
  intro m hm
  rw [Bool.and_eq_true]
  constructor
  · rw [Bool.not_eq_true']
    exact (contains_eq_false_iff _ _).mpr (hfin.2.2.2 m hm).1
  · rw [Bool.not_eq_true']
    exact (contains_eq_false_iff _ _).mpr (hfin.2.2.2 m hm).2

/-! ## Idempotence of the Structure Matcher -/

theorem matchedCorr_step (mo mu : List String) :
    ∀ (st : SMState) (o : MessageType),
      matchedCorr mo mu st → matchedCorr mo mu (processObsMsg st o) := by
  intro st o hp
  unfold processObsMsg
  split
  · exact hp
  · split
    · rename_i u hcand
      dsimp only [acceptState]
      obtain ⟨h1, h2⟩ := hp
      constructor
      · intro x
        simp only [List.mem_cons, List.map_append, List.mem_append,
          List.map_cons, List.map_nil, List.mem_singleton, h1 x]
        tauto
      · intro x
        simp only [List.mem_cons, List.map_append, List.mem_append,
          List.map_cons, List.map_nil, List.mem_singleton, h2 x]
        tauto
    · exact hp

theorem filter_and_absorb (base : List MessageType) (old new : List String)
    (hsub : ∀ x ∈ old, x ∈ new) :
    (base.filter (fun m => !old.contains m.name)).filter
        (fun m => !new.contains m.name) =
      base.filter (fun m => !new.contains m.name) := by
  rw [List.filter_filter]
  apply List.filter_congr
  intro m _
  cases hc1 : new.contains m.name
  · have hc0 : old.contains m.name = false := by
      cases hc0 : old.contains m.name
      · rfl
      · have := (contains_iff_mem _ _).mpr (hsub _ ((contains_iff_mem _ _).mp hc0))
        rw [this] at hc1
        exact hc1
    rw [hc0]
    rfl
  · simp

theorem poolCorr_pass (obf unobf : Descriptor) :
    ∀ st : SMState, poolCorr obf unobf st → poolCorr obf unobf (onePass st) := by
  intro st hp
  unfold onePass
  dsimp only
  split
  · unfold rebuildPools
    constructor
    · show (_ : List MessageType).filter _ = _
      rw [(foldl_pools _ _).1, hp.1]
      exact filter_and_absorb _ _ _ (fun x hx => (foldl_matched_mono _ _).1 x hx)
    · show (_ : List MessageType).filter _ = _
      rw [(foldl_pools _ _).2, hp.2]
      exact filter_and_absorb _ _ _ (fun x hx => (foldl_matched_mono _ _).2 x hx)
  · rename_i hcf
    have hcf2 :
        (st.unmatchedObs.foldl processObsMsg { st with changed := false }).changed =
          false := by
      cases hb :
          (st.unmatchedObs.foldl processObsMsg { st with changed := false }).changed
      · rfl
      · exact absurd hb hcf
    obtain ⟨he, _⟩ := foldl_changed_false hcf2
    rw [he]
    exact hp

/-- C6: running the Structure Matcher a second time with the first run's
output appended to the alreadyMatched input yields an empty match list
(idempotence). -/
theorem C6_second_run_empty (obf unobf : Descriptor) (em : List MessageMatch) :
    FindStrictStructureBasedMatches obf unobf
      (em ++ FindStrictStructureBasedMatches obf unobf em) = [] := by
  set st0 := initState obf unobf em with hst0
  set F := smLoop (st0.unmatchedObs.length + 1) st0 with hFdef
  have hNA : noAccept F ∧ F.changed = false :=
    smLoop_noAccept _ _ (Nat.lt_succ_self _)
  have hinit0 : matchedCorr (em.map (fun m => m.obfuscatedMsg))
      (em.map (fun m => m.originalMsg)) st0 := by
    constructor
    · intro x
      simp [hst0, initState]
    · intro x
      simp [hst0, initState]
  have hcorr : matchedCorr (em.map (fun m => m.obfuscatedMsg))
      (em.map (fun m => m.originalMsg)) F :=
    smLoop_inv _
      (onePass_inv _ (matchedCorr_step _ _) (fun st b hp => hp) (fun st hp => hp))
      _ _ hinit0
  have hpc0 : poolCorr obf unobf st0 := ⟨rfl, rfl⟩
  have hpool : poolCorr obf unobf F :=
    smLoop_inv _ (poolCorr_pass obf unobf) _ _ hpc0
  set st1 := initState obf unobf (em ++ F.foundMatches) with hst1
  have hmo : ∀ x, x ∈ st1.matchedObs ↔ x ∈ F.matchedObs := by
    intro x
    rw [hst1]
    show x ∈ (em ++ F.foundMatches).map (fun m => m.obfuscatedMsg) ↔ _
    rw [List.map_append, List.mem_append]
    exact (hcorr.1 x).symm
  have hmu : ∀ x, x ∈ st1.matchedUnobs ↔ x ∈ F.matchedUnobs := by
    intro x
    rw [hst1]
    show x ∈ (em ++ F.foundMatches).map (fun m => m.originalMsg) ↔ _
    rw [List.map_append, List.mem_append]
    exact (hcorr.2 x).symm
  have hpoolEq1 : st1.unmatchedObs = F.unmatchedObs := by
    have h1 : st1.unmatchedObs =
        obf.messageType.filter (fun m => !st1.matchedObs.contains m.name) := rfl
    rw [h1, hpool.1]
    apply List.filter_congr
    intro m _
    rw [contains_ext hmo m.name]
  have hpoolEq2 : st1.unmatchedUnobs = F.unmatchedUnobs := by
    have h1 : st1.unmatchedUnobs =
        unobf.messageType.filter (fun m => !st1.matchedUnobs.contains m.name) := rfl
    rw [h1, hpool.2]
    apply List.filter_congr
    intro m _
    rw [contains_ext hmu m.name]
  have hNA1 : noAccept st1 := by
    intro o ho
    rw [hpoolEq1] at ho
    rcases hNA.1 o ho with h | h
    · left
      rw [contains_ext hmo o.name]
      exact h
    · right
      have hcand : candidatesFor st1 o = candidatesFor F o := by
        unfold candidatesFor
        rw [hpoolEq2]
        apply List.filter_congr
        intro u _
        rw [contains_ext hmu u.name]
      rw [hcand]
      exact h
  show (smLoop (st1.unmatchedObs.length + 1) st1).foundMatches = []
  rw [smLoop_succ, onePass_of_noAccept hNA1, if_neg (by simp)]
  rfl

/-! ## Enum matcher: iteration-order analysis -/

theorem scanStep_best (p : String) (e : EnumType) (acc : Bool × EnumMatch × ℚ)
    (pe : String × EnumType) (h0 : 0 ≤ acc.2.2) :
    (scanStep p e acc pe).2.2 = max acc.2.2 (gConf e pe) := by
  unfold scanStep gConf
  rcases hr : compareEnums e pe.2 with ⟨b, oc⟩
  dsimp only
  cases b
  · simp [max_eq_left h0]
  · cases oc with
    | none => simp [max_eq_left h0]
    | some c =>
      by_cases hc : c > acc.2.2
      · simp only [if_true]
        rw [if_pos hc]
        exact (max_eq_right (le_of_lt hc)).symm
      · simp only [if_true]
        rw [if_neg hc]
        exact (max_eq_left (not_lt.mp hc)).symm

theorem scanStep_inv (p : String) (e : EnumType) (acc : Bool × EnumMatch × ℚ)
    (pe : String × EnumType) (h0 : 0 ≤ acc.2.2)
    (hiff : acc.1 = true ↔ 0 < acc.2.2)
    (hconf : acc.1 = true → acc.2.1.confidence = acc.2.2) :
    0 ≤ (scanStep p e acc pe).2.2 ∧
      ((scanStep p e acc pe).1 = true ↔ 0 < (scanStep p e acc pe).2.2) ∧
      ((scanStep p e acc pe).1 = true →
        (scanStep p e acc pe).2.1.confidence = (scanStep p e acc pe).2.2) := by
  unfold scanStep
  rcases hr : compareEnums e pe.2 with ⟨b, oc⟩
  dsimp only
  cases b
  · simpa using ⟨h0, hiff, hconf⟩
  · cases oc with
    | none => simpa using ⟨h0, hiff, hconf⟩
    | some c =>
      simp only [if_true]
      by_cases hc : c > acc.2.2
      · rw [if_pos hc]
        refine ⟨by dsimp only; linarith, ?_, ?_⟩
        · dsimp only
          constructor
          · intro _
            linarith
          · intro _
            rfl
        · intro _
          rfl
      · rw [if_neg hc]
        exact ⟨h0, hiff, hconf⟩

theorem scanFold_spec (p : String) (e : EnumType) :
    ∀ (l : List (String × EnumType)) (acc : Bool × EnumMatch × ℚ),
      0 ≤ acc.2.2 → (acc.1 = true ↔ 0 < acc.2.2) →
      (acc.1 = true → acc.2.1.confidence = acc.2.2) →
      0 ≤ (l.foldl (scanStep p e) acc).2.2 ∧
        ((l.foldl (scanStep p e) acc).1 = true ↔
          0 < (l.foldl (scanStep p e) acc).2.2) ∧
        ((l.foldl (scanStep p e) acc).1 = true →
          (l.foldl (scanStep p e) acc).2.1.confidence =
            (l.foldl (scanStep p e) acc).2.2) ∧
        (l.foldl (scanStep p e) acc).2.2 =
          l.foldl (fun b pe => max b (gConf e pe)) acc.2.2 := by
  intro l
  induction l with
  | nil =>
    intro acc h0 hiff hconf
    exact ⟨h0, hiff, hconf, rfl⟩
  | cons pe rest ih =>
    intro acc h0 hiff hconf
    obtain ⟨s0, s1, s2⟩ := scanStep_inv p e acc pe h0 hiff hconf
    obtain ⟨r0, r1, r2, r3⟩ := ih (scanStep p e acc pe) s0 s1 s2
    rw [List.foldl_cons, List.foldl_cons]
    exact ⟨r0, r1, r2, by rw [r3, scanStep_best p e acc pe h0]⟩

theorem scan_best_eq (p : String) (e : EnumType) (l : List (String × EnumType)) :
    (scanUnobsEnums p e l).2.2 = l.foldl (fun b pe => max b (gConf e pe)) 0 :=
  (scanFold_spec p e l (false, defaultEnumMatch, 0) (le_refl 0) (by simp)
    (by simp)).2.2.2

theorem scan_flag_iff (p : String) (e : EnumType) (l : List (String × EnumType)) :
    (scanUnobsEnums p e l).1 = true ↔ 0 < (scanUnobsEnums p e l).2.2 :=
  (scanFold_spec p e l (false, defaultEnumMatch, 0) (le_refl 0) (by simp)
    (by simp)).2.1

theorem scan_conf_eq (p : String) (e : EnumType) (l : List (String × EnumType))
    (h : (scanUnobsEnums p e l).1 = true) :
    (scanUnobsEnums p e l).2.1.confidence = (scanUnobsEnums p e l).2.2 :=
  (scanFold_spec p e l (false, defaultEnumMatch, 0) (le_refl 0) (by simp)
    (by simp)).2.2.1 h

theorem scan_best_perm (p : String) (e : EnumType)
    {l1 l2 : List (String × EnumType)} (h : l1.Perm l2) :
    (scanUnobsEnums p e l1).2.2 = (scanUnobsEnums p e l2).2.2 := by
  rw [scan_best_eq, scan_best_eq]
  exact h.foldl_eq' (fun x _ y _ z => sup_right_comm z (gConf e x) (gConf e y)) 0

theorem scan_flag_perm (p : String) (e : EnumType)
    {l1 l2 : List (String × EnumType)} (h : l1.Perm l2) :
    (scanUnobsEnums p e l1).1 = (scanUnobsEnums p e l2).1 := by
  rw [Bool.eq_iff_iff, scan_flag_iff, scan_flag_iff, scan_best_perm p e h]

theorem all_congr_list {α : Type} {l : List α} {f g : α → Bool}
    (h : ∀ a ∈ l, f a = g a) : l.all f = l.all g := by
  induction l with
  | nil => rfl
  | cons a rest ih =>
    rw [List.all_cons, List.all_cons, h a (by simp),
      ih (fun x hx => h x (List.mem_cons_of_mem a hx))]

theorem all_perm_list {α : Type} {l1 l2 : List α} (h : l1.Perm l2)
    (f : α → Bool) : l1.all f = l2.all f := by
  rw [Bool.eq_iff_iff, List.all_eq_true, List.all_eq_true]
  constructor
  · intro ha x hx
    exact ha x (h.mem_iff.mpr hx)
  · intro ha x hx
    exact ha x (h.mem_iff.mp hx)

theorem meaFold_spec (ues : List (String × EnumType)) :
    ∀ (l : List (String × EnumType)) (acc : List EnumMatch × Bool),
      (l.foldl (meaStep ues) acc).2 =
        (acc.2 && l.all (fun pe => (scanUnobsEnums pe.1 pe.2 ues).1)) ∧
      (l.foldl (meaStep ues) acc).1 =
        acc.1 ++ (l.filter (fun pe => (scanUnobsEnums pe.1 pe.2 ues).1)).map
          (fun pe => (scanUnobsEnums pe.1 pe.2 ues).2.1) := by
  intro l
  induction l with
  | nil =>
    intro acc
    simp
  | cons pe rest ih =>
    intro acc
    rw [List.foldl_cons]
    cases hf : (scanUnobsEnums pe.1 pe.2 ues).1
    · have hstep : meaStep ues acc pe = (acc.1, false) := by
        unfold meaStep
        dsimp only
        rw [hf]
        simp
      obtain ⟨ih2, ih1⟩ := ih (acc.1, false)
      constructor
      · rw [hstep, ih2, List.all_cons, hf]
        simp
      · rw [hstep, ih1, List.filter_cons, hf]
        simp
    · have hstep : meaStep ues acc pe =
          (acc.1 ++ [(scanUnobsEnums pe.1 pe.2 ues).2.1], acc.2) := by
        unfold meaStep
        dsimp only
        rw [hf]
        simp
      obtain ⟨ih2, ih1⟩ :=
        ih (acc.1 ++ [(scanUnobsEnums pe.1 pe.2 ues).2.1], acc.2)
      constructor
      · rw [hstep, ih2, List.all_cons, hf]
        simp
      · rw [hstep, ih1, List.filter_cons, hf]
        simp

theorem mea_snd (oes ues : List (String × EnumType)) :
    (matchEnumsAgainst oes ues).2 =
      oes.all (fun pe => (scanUnobsEnums pe.1 pe.2 ues).1) := by
  have h := (meaFold_spec ues oes ([], true)).1
  simpa using h

theorem mea_fst (oes ues : List (String × EnumType)) :
    (matchEnumsAgainst oes ues).1 =
      (oes.filter (fun pe => (scanUnobsEnums pe.1 pe.2 ues).1)).map
        (fun pe => (scanUnobsEnums pe.1 pe.2 ues).2.1) := by
  have h := (meaFold_spec ues oes ([], true)).2
  simpa using h

theorem mea_sum (oes ues : List (String × EnumType)) :
    ((matchEnumsAgainst oes ues).1.map (fun em => em.confidence)).sum =
      ((oes.filter (fun pe => (scanUnobsEnums pe.1 pe.2 ues).1)).map
        (fun pe => (scanUnobsEnums pe.1 pe.2 ues).2.2)).sum := by
  rw [mea_fst, List.map_map]
  congr 1
  apply List.map_congr_left
  intro pe hpe
  have hflag := (List.mem_filter.mp hpe).2
  exact scan_conf_eq pe.1 pe.2 ues hflag

theorem mea_invariance {oe1 oe2 ue1 ue2 : List (String × EnumType)}
    (hoe : oe1.Perm oe2) (hue : ue1.Perm ue2) :
    (matchEnumsAgainst oe1 ue1).2 = (matchEnumsAgainst oe2 ue2).2 ∧
    (matchEnumsAgainst oe1 ue1).1.length = (matchEnumsAgainst oe2 ue2).1.length ∧
    ((matchEnumsAgainst oe1 ue1).1.map (fun em => em.confidence)).sum =
      ((matchEnumsAgainst oe2 ue2).1.map (fun em => em.confidence)).sum := by
  have hflag : ∀ pe : String × EnumType,
      (scanUnobsEnums pe.1 pe.2 ue1).1 = (scanUnobsEnums pe.1 pe.2 ue2).1 :=
    fun pe => scan_flag_perm pe.1 pe.2 hue
  have hbest : ∀ pe : String × EnumType,
      (scanUnobsEnums pe.1 pe.2 ue1).2.2 = (scanUnobsEnums pe.1 pe.2 ue2).2.2 :=
    fun pe => scan_best_perm pe.1 pe.2 hue
  have hfiltereq : oe1.filter (fun pe => (scanUnobsEnums pe.1 pe.2 ue1).1) =
      oe1.filter (fun pe => (scanUnobsEnums pe.1 pe.2 ue2).1) :=
    List.filter_congr (fun pe _ => hflag pe)
  have hfilterperm :
      (oe1.filter (fun pe => (scanUnobsEnums pe.1 pe.2 ue2).1)).Perm
        (oe2.filter (fun pe => (scanUnobsEnums pe.1 pe.2 ue2).1)) :=
    hoe.filter _
  refine ⟨?_, ?_, ?_⟩
  · rw [mea_snd, mea_snd, all_congr_list (fun pe _ => hflag pe),
      all_perm_list hoe]
  · rw [mea_fst, mea_fst, List.length_map, List.length_map, hfiltereq,
      hfilterperm.length_eq]
  · rw [mea_sum, mea_sum, List.map_congr_left
      (fun pe _ => hbest pe), hfiltereq]
    exact (hfilterperm.map _).sum_eq

theorem findUnobsMatch_cons
    (ord : List (String × EnumType) → List (String × EnumType))
    (o : MessageType) (oe : List (String × EnumType)) (u : MessageType)
    (rest : List MessageType) :
    findUnobsMatch ord o oe (u :: rest) =
      (if (matchEnumsAgainst oe (ord (getAllEnums u ""))).2 &&
          decide (0 < (matchEnumsAgainst oe (ord (getAllEnums u ""))).1.length) then
        some ⟨o.name, o.sourceFile, u.name, u.sourceFile,
          ((matchEnumsAgainst oe (ord (getAllEnums u ""))).1.map
            (fun em => em.confidence)).sum /
            ((matchEnumsAgainst oe (ord (getAllEnums u ""))).1.length : ℚ),
          (matchEnumsAgainst oe (ord (getAllEnums u ""))).1⟩
      else findUnobsMatch ord o oe rest) := rfl

theorem findUnobsMatch_invariance
    (ord1 ord2 : List (String × EnumType) → List (String × EnumType))
    (hord1 : ∀ l, (ord1 l).Perm l) (hord2 : ∀ l, (ord2 l).Perm l)
    (o : MessageType) {oe1 oe2 : List (String × EnumType)} (hoe : oe1.Perm oe2) :
    ∀ ms : List MessageType,
      Option.map matchSummary (findUnobsMatch ord1 o oe1 ms) =
        Option.map matchSummary (findUnobsMatch ord2 o oe2 ms) := by
  intro ms
  induction ms with
  | nil => rfl
  | cons u rest ih =>
    rw [findUnobsMatch_cons, findUnobsMatch_cons]
    have hue : (ord1 (getAllEnums u "")).Perm (ord2 (getAllEnums u "")) :=
      (hord1 _).trans (hord2 _).symm
    obtain ⟨hA, hL, hS⟩ := mea_invariance hoe hue
    have hCE : ((matchEnumsAgainst oe1 (ord1 (getAllEnums u ""))).2 &&
        decide (0 < (matchEnumsAgainst oe1 (ord1 (getAllEnums u ""))).1.length)) =
        ((matchEnumsAgainst oe2 (ord2 (getAllEnums u ""))).2 &&
          decide (0 < (matchEnumsAgainst oe2 (ord2 (getAllEnums u ""))).1.length)) := by
      rw [hA, hL]
    by_cases hcond : ((matchEnumsAgainst oe2 (ord2 (getAllEnums u ""))).2 &&
        decide (0 < (matchEnumsAgainst oe2 (ord2 (getAllEnums u ""))).1.length)) = true
    · rw [if_pos (by rw [hCE]; exact hcond), if_pos hcond]
      dsimp only [Option.map, matchSummary]
      rw [hS, hL]
    · rw [if_neg (by rw [hCE]; exact hcond), if_neg hcond]
      exact ih

theorem feb_fold_invariance
    (ord1 ord2 : List (String × EnumType) → List (String × EnumType))
    (hord1 : ∀ l, (ord1 l).Perm l) (hord2 : ∀ l, (ord2 l).Perm l)
    (unobf : Descriptor) :
    ∀ (l : List MessageType) (acc1 acc2 : List MessageMatch),
      acc1.map matchSummary = acc2.map matchSummary →
      (l.foldl (febStep ord1 unobf) acc1).map matchSummary =
        (l.foldl (febStep ord2 unobf) acc2).map matchSummary := by
  intro l
  induction l with
  | nil => exact fun acc1 acc2 h => h
  | cons o rest ih =>
    intro acc1 acc2 h
    rw [List.foldl_cons, List.foldl_cons]
    apply ih
    unfold febStep
    dsimp only
    have hlen : (ord1 (getAllEnums o "")).length = (ord2 (getAllEnums o "")).length := by
      rw [(hord1 _).length_eq, (hord2 _).length_eq]
    have hperm : (ord1 (getAllEnums o "")).Perm (ord2 (getAllEnums o "")) :=
      (hord1 _).trans (hord2 _).symm
    by_cases hz : (ord2 (getAllEnums o "")).length = 0
    · rw [if_pos (hlen.trans hz), if_pos hz]
      exact h
    · rw [if_neg (by rw [hlen]; exact hz), if_neg hz]
      have hfum := findUnobsMatch_invariance ord1 ord2 hord1 hord2 o hperm
        unobf.messageType
      rcases h1 : findUnobsMatch ord1 o (ord1 (getAllEnums o ""))
          unobf.messageType with _ | m1 <;>
        rcases h2 : findUnobsMatch ord2 o (ord2 (getAllEnums o ""))
          unobf.messageType with _ | m2
      · exact h
      · rw [h1, h2] at hfum
        simp [Option.map] at hfum
      · rw [h1, h2] at hfum
        simp [Option.map] at hfum
      · rw [h1, h2] at hfum
        simp only [Option.map, Option.some_inj] at hfum
        rw [List.map_append, List.map_append, h]
        simp only [List.map_cons, List.map_nil, hfum]

/-- C3 amended: for any map iteration order (modelled by a reordering that
permutes each enum list), the Enum Matcher produces the same match list up
to the recorded enum-match details: the obfuscated and original message
names, their source files, and the confidence are identical to the
canonical-order run.  (The C3 counterexample shows the full match lists,
including the per-enum details, can differ.) -/
theorem C3_summary_invariance
    (ord : List (String × EnumType) → List (String × EnumType))
    (hord : ∀ l, (ord l).Perm l) (obf unobf : Descriptor) :
    (FindEnumBasedMatches ord obf unobf).map matchSummary =
      (FindEnumBasedMatches (fun l => l) obf unobf).map matchSummary := by
  unfold FindEnumBasedMatches
  exact feb_fold_invariance ord (fun l => l) hord (fun l => List.Perm.refl l)
    unobf obf.messageType [] [] rfl

/-- C3 witness: the amended statement at the concrete tie input and the
reversal iteration order. -/
theorem C3_witness :
    (FindEnumBasedMatches (fun l => l.reverse) descEo descEu).map matchSummary =
      (FindEnumBasedMatches (fun l => l) descEo descEu).map matchSummary :=
  C3_summary_invariance (fun l => l.reverse) (fun l => List.reverse_perm l)
    descEo descEu

/-- C3 counterexample: the same two descriptors, with two reference enums
tying at confidence 100, produce different match lists under two map
iteration orders (identity and reversal): the recorded OriginalEnum differs
(N.E1 against N.E2), so two invocations of the Go function need not return
the same list. -/
theorem C3_counterexample :
    FindEnumBasedMatches (fun l => l.reverse) descEo descEu ≠
      FindEnumBasedMatches (fun l => l) descEo descEu := by
  have h1 : FindEnumBasedMatches (fun l => l) descEo descEu =
      [⟨"M", "mo.proto", "N", "mu.proto", 100, [⟨"M.E", "N.E1", ["A=0"], 100⟩]⟩] := by
    simp [FindEnumBasedMatches, febStep, findUnobsMatch, matchEnumsAgainst,
      meaStep, scanUnobsEnums, scanStep, compareEnums, enumMap, matchingCount,
      insertKV, lookupKV, getAllEnums, getAllEnumsNested, formatEnumValues,
      defaultEnumMatch, descEo, descEu, msgEo, msgEu, enumA0,
      MessageType.name, MessageType.sourceFile]
    rfl
  have h2 : FindEnumBasedMatches (fun l => l.reverse) descEo descEu =
      [⟨"M", "mo.proto", "N", "mu.proto", 100, [⟨"M.E", "N.E2", ["A=0"], 100⟩]⟩] := by
    simp [FindEnumBasedMatches, febStep, findUnobsMatch, matchEnumsAgainst,
      meaStep, scanUnobsEnums, scanStep, compareEnums, enumMap, matchingCount,
      insertKV, lookupKV, getAllEnums, getAllEnumsNested, formatEnumValues,
      defaultEnumMatch, descEo, descEu, msgEo, msgEu, enumA0,
      MessageType.name, MessageType.sourceFile]
    rfl
  intro heq
  rw [h1, h2] at heq
  simp at heq

end Deobfs
